import Mathlib

/-!
Verification of the heoplatform vite-plugin core: the module dependency
resolver (src/preload.ts) and the plugin lifecycle orchestrator
(the vitePlugin module).  JavaScript strings are modelled as lists of
characters; the handful of JS string primitives the source uses
(startsWith, includes, lastIndexOf, split, slice) are defined below and
the source functions are translated on top of them.  Exceptions are
modelled with Except, undefined-index accesses with Option, and the
recursive module-graph walk with an explicit fuel parameter (the fuel
is proved sufficient, which is the termination statement).
-/

namespace VitePlugin

set_option maxRecDepth 100000

/-- JavaScript strings, modelled as lists of characters. -/
abbrev Str := List Char

/-- JS "a.includes(pat)": some suffix of a has pat as a prefix. -/
def containsSub (l pat : Str) : Bool :=
  (List.range (l.length + 1)).any (fun i => pat.isPrefixOf (l.drop i))

/-- JS "a.lastIndexOf(pat)": the largest index at which pat occurs in a
(none when pat does not occur; the TS code compares against -1). -/
def lastIndexOfSub (l pat : Str) : Option Nat :=
  ((List.range (l.length + 1)).filter (fun i => pat.isPrefixOf (l.drop i))).getLast?

/-- The first index at which pat occurs in l, if any. -/
def firstIndexOfSub (l pat : Str) : Option Nat :=
  ((List.range (l.length + 1)).filter (fun i => pat.isPrefixOf (l.drop i))).head?

/-- JS "a.split(c)" for a single-character separator. -/
def splitOnChar (c : Char) : Str → List Str
  | [] => [[]]
  | x :: xs =>
    match splitOnChar c xs with
    | [] => if x = c then [[], []] else [[x]]
    | h :: t => if x = c then [] :: h :: t else (x :: h) :: t

/-- Recursion kernel of the string split: cut at the first occurrence
and continue after it.  Each step consumes at least one character for a
non-empty separator, so a budget of the string length plus one is
sufficient (splitOnSubFuel_congr below makes the budget irrelevant). -/
def splitOnSubFuel (pat : Str) : Nat → Str → List Str
  | 0, l => [l]
  | fuel + 1, l =>
    match firstIndexOfSub l pat with
    | none => [l]
    | some i => l.take i :: splitOnSubFuel pat fuel (l.drop (i + pat.length))

/-- JS "a.split(pat)" for a non-empty string separator: splits at every
non-overlapping occurrence scanning from the left.  (The sources only
ever split on the fixed non-empty marker strings.) -/
def splitOnSub (l pat : Str) : List Str :=
  if pat = [] then [l] else splitOnSubFuel pat (l.length + 1) l

/-- First-occurrence-order deduplication, the JS [...new Set(xs)] idiom. -/
def insertionDedupGo {α : Type} [DecidableEq α] (seen : List α) : List α → List α
  | [] => []
  | x :: xs => if x ∈ seen then insertionDedupGo seen xs
               else x :: insertionDedupGo (x :: seen) xs

/-- JS [...new Set(xs)]: keeps the first occurrence of each element. -/
def insertionDedup {α : Type} [DecidableEq α] (l : List α) : List α :=
  insertionDedupGo [] l

/-- Join path segments with a slash separator. -/
def joinSegs : List Str → Str
  | [] => []
  | [s] => s
  | s :: rest => s ++ '/' :: joinSegs rest

/-- Normalization step of Node's path.join: empty and "." segments are
dropped, ".." pops the previous segment. -/
def normalizeSegs (segs : List Str) : List Str :=
  segs.foldl (fun acc s =>
    if s = [] then acc
    else if s = ['.'] then acc
    else if s = ['.', '.'] then acc.dropLast
    else acc ++ [s]) []

/-- Model of Node's path.join on a list of parts: the parts are joined
with '/' and the result is normalized, keeping a leading '/' when the
first part is absolute. -/
def pathJoinParts (parts : List Str) : Str :=
  let joined := joinSegs parts
  let segs := normalizeSegs (splitOnChar '/' joined)
  (if joined.head? = some '/' then ['/'] else []) ++ joinSegs segs

/-- Node path.join with two arguments. -/
def pathJoin (a b : Str) : Str := pathJoinParts [a, b]

/-- Node path.join with three arguments. -/
def pathJoin3 (a b c : Str) : Str := pathJoinParts [a, b, c]

/-- Association-list lookup (JS object property / Map.get). -/
def assocLookup {β : Type} : List (Str × β) → Str → Option β
  | [], _ => none
  | (k, v) :: rest, s => if k = s then some v else assocLookup rest s

/-! ### src/preload.ts — the dependency resolver -/

/-- A node of the vite dev-server module graph: its id (which vite may
leave null) and the ids of its directly imported modules (each of which
may also be null).  Mirrors the fields of ModuleNode that
collectDepsDev reads. -/
structure ModuleNode where
  id : Option Str
  deps : List (Option Str)
deriving DecidableEq

/-- The result of moduleGraph.getModuleById for one id: the backend can
also throw, which is modelled as an error entry. -/
abbrev GraphEntry := Except Str ModuleNode

/-- The dev server's module graph, as a finite association from ids to
lookup outcomes.  Ids absent from the list yield undefined. -/
abbrev ModuleGraph := List (Str × GraphEntry)

/-- viteDevServer.moduleGraph.getModuleById: undefined for missing ids,
a node or a thrown error for present ones. -/
def lookupG (g : ModuleGraph) (s : Str) : Except Str (Option ModuleNode) :=
  match assocLookup g s with
  | none => .ok none
  | some (.ok n) => .ok (some n)
  | some (.error e) => .error e

/-- The node found for an id when the lookup neither misses nor throws. -/
def findNode (g : ModuleGraph) (s : Str) : Option ModuleNode :=
  match lookupG g s with
  | .ok (some n) => some n
  | _ => none

/-- Sequential traversal of one node's importedModules list (the for
loop inside collectDepsDev): null ids are skipped, the visited set is
threaded left to right, and a thrown error or fuel exhaustion aborts. -/
def collectMany (step : Str → List Str → Option (Except Str (List Str))) :
    List (Option Str) → List Str → Option (Except Str (List Str))
  | [], seen => some (.ok seen)
  | none :: rest, seen => collectMany step rest seen
  | some d :: rest, seen =>
    match step d seen with
    | none => none
    | some (.error e) => some (.error e)
    | some (.ok seen') => collectMany step rest seen'

/-- One unfolding of collectDepsDev: look the entry up, bail out when it
is missing, has no id, or is already in the visited set, otherwise add
its id and recurse (via recur) into its imports. -/
def collectStep (g : ModuleGraph)
    (recur : Str → List Str → Option (Except Str (List Str)))
    (entryId : Str) (seen : List Str) : Option (Except Str (List Str)) :=
  match lookupG g entryId with
  | .error e => some (.error e)
  | .ok none => some (.ok seen)
  | .ok (some m) =>
    match m.id with
    | none => some (.ok seen)
    | some mid =>
      if mid ∈ seen then some (.ok seen)
      else collectMany recur m.deps (seen ++ [mid])

/-- collectDepsDev with an explicit recursion-depth budget; none means
the budget was exhausted (proved unreachable for the budget used). -/
def collectFuel (g : ModuleGraph) : Nat → Str → List Str → Option (Except Str (List Str))
  | 0 => fun _ _ => none
  | fuel + 1 => collectStep g (collectFuel g fuel)

/-- collectDepsDev(viteDevServer, entryId, seen): the recursive walk of
src/preload.ts lines 9-23, run with a budget that is proved sufficient
(collectFuel_ne_none_of_fuel below). -/
def collectDepsDev (g : ModuleGraph) (entryId : Str) (seen : List Str := []) :
    Option (Except Str (List Str)) :=
  collectFuel g (g.length + 1) entryId seen

/-- extractPackageName (src/preload.ts lines 48-61). -/
def extractPackageName (filePath : Str) : Option Str :=
  match lastIndexOfSub filePath ("node_modules/".data) with
  | none => none
  | some nodeModulesIndex =>
    let afterNodeModules := filePath.drop (nodeModulesIndex + ("node_modules/".data).length)
    let parts := splitOnChar '/' afterNodeModules
    let p0 := parts.headD []
    if ("@".data).isPrefixOf p0 then
      if parts.length > 1 then some (p0 ++ '_' :: (parts.getD 1 []))
      else some p0
    else some p0

/-- getOptimizedUrl (src/preload.ts lines 25-46).  The truthiness test
on packageName means the empty string also falls through to the
path.join branch. -/
def getOptimizedUrl (id : Str) : Str :=
  if ("/@id/".data).isPrefixOf id || ("/@fs/".data).isPrefixOf id
      || ("/node_modules/.vite/deps/".data).isPrefixOf id then id
  else if containsSub id ("node_modules".data) && !containsSub id (".vite/deps".data) then
    match extractPackageName id with
    | some (c :: restName) => ("/node_modules/.vite/deps/".data) ++ (c :: restName) ++ (".js".data)
    | _ => pathJoin ("/@fs/".data) id
  else pathJoin ("/@fs/".data) id

/-- The normalization applied to every incoming module specifier in
getDeps: "/@fs/x" keeps the slash ("slice(4)"), "file://p" drops the
scheme ("slice(7)"). -/
def normalizeModule (m : Str) : Str :=
  if ("/@fs/".data).isPrefixOf m then m.drop 4
  else if ("file://".data).isPrefixOf m then m.drop 7
  else m

/-- What one call of getDeps produces: the returned list plus the
console.warn log. -/
structure DepsResult where
  deps : List Str
  warns : List Str
deriving DecidableEq

/-- The body of getDeps' per-module loop iteration: the pair of the
asset URLs pushed and the warnings logged for that module. -/
def getDepsStep (manifestJson : List (Str × List Str)) (viteDevServer : Option ModuleGraph)
    (isProduction : Bool) (module : Str) : List Str × List Str :=
  if isProduction then
    match assocLookup manifestJson module with
    | some manifestModules => (manifestModules, [])
    | none => ([], [])
  else
    match viteDevServer with
    | none => ([], [])
    | some g =>
      match collectDepsDev g module with
      | some (.ok depsDev) =>
        if depsDev.length > 0 then (depsDev.map getOptimizedUrl, []) else ([], [])
      | some (.error _) => ([], [module])
      | none => ([], [])

/-- getDeps (src/preload.ts lines 63-96), parameterized by the loaded
manifest mapping (the module-level constant manifestJson) and the dev
server's module graph.  A fresh visited set is created per module; the
try/catch around each traversal turns a thrown error into a warning for
that module only; the final result is deduplicated preserving first
occurrence. -/
def getDeps (manifestJson : List (Str × List Str)) (viteDevServer : Option ModuleGraph)
    (isProduction : Bool) (modules : List Str) : DepsResult :=
  let normalized := modules.map normalizeModule
  let acc := normalized.foldl
    (fun acc m =>
      let r := getDepsStep manifestJson viteDevServer isProduction m
      (acc.1 ++ r.1, acc.2 ++ r.2)) ([], [])
  ⟨insertionDedup acc.1, acc.2⟩

/-- The dependency-resolution function wired onto the RuntimeContext in
initExpress: "getDeps: (modules) => getDeps(modules, vite)".  The
isProduction argument is omitted at the call site, so it takes its
default value false regardless of the orchestrator's mode. -/
def initViteGetDeps (manifestJson : List (Str × List Str)) (vite : Option ModuleGraph)
    (modules : List Str) : List Str :=
  (getDeps manifestJson vite false modules).deps

/-- Module-load construction of manifestJson (src/preload.ts lines 5-7):
JSON.parse of the file content (JSON.parse itself is the platform
parser, taken as a parameter that either yields the parsed object or
throws), then each key is prefixed with path.join(cwd, ".vite", key).
There is no try/catch around the parse, so a parse failure propagates
out of the module load. -/
def loadManifestJson (parseJson : Str → Except Str (List (Str × List Str)))
    (cwd content : Str) : Except Str (List (Str × List Str)) :=
  (parseJson content).map
    (fun entries => entries.map (fun kv => (pathJoin3 cwd (".vite".data) kv.1, kv.2)))

/-! ### The plugin lifecycle orchestrator (vitePlugin) -/

/-- The fields of the vite InlineConfig literals that the orchestrator
builds (getViteDevConfig / getViteProdConfig). -/
structure ViteInlineConfig where
  appType : Str
  root : Str
  base : Str
  middlewareMode : Bool
  rollupInput : List Str
  outDir : Option Str
  target : Str
  ssrManifest : Bool
  ssr : Bool
  optimizeDepsExclude : List Str
  pluginNames : List Str
deriving DecidableEq

/-- VitePluginConfig: the value folded through the configureVite hooks. -/
structure VitePluginConfig where
  config : ViteInlineConfig
  clientPluginModules : List Str
  serverPluginModules : List Str
deriving DecidableEq

/-- A configureVite hook (the awaits make the fold sequential, so each
hook is a plain function from config to config). -/
abbrev CfgHook := VitePluginConfig → VitePluginConfig

/-- The initial config literal of getViteDevConfig, including the
injected vite-plugin-reload plugin. -/
def viteDevBaseConfig : VitePluginConfig :=
  { config :=
    { appType := ("custom").data
      root := ("./.vite").data
      base := ("/").data
      middlewareMode := true
      rollupInput := []
      outDir := none
      target := ("esnext").data
      ssrManifest := false
      ssr := false
      optimizeDepsExclude := [("express").data, ("@heoplatform/vite-plugin").data]
      pluginNames := [("vite-plugin-reload").data] }
    clientPluginModules := []
    serverPluginModules := [] }

/-- getViteDevConfig: fold the configureVite hooks over the dev literal. -/
def getViteDevConfig (hooks : List CfgHook) : VitePluginConfig :=
  hooks.foldl (fun c h => h c) viteDevBaseConfig

/-- The initial config literal of getViteProdConfig for the given ssr
flag (lines 642-675 of the orchestrator source). -/
def viteProdBaseConfig (ssr : Bool) : VitePluginConfig :=
  { config :=
    { appType := ("custom").data
      root := ("./.vite").data
      base := ("/").data
      middlewareMode := false
      rollupInput :=
        if ssr then [("./.vite/server.ts").data, ("./.vite/client.ts").data,
                     ("./.vite/clientPlugins.ts").data]
        else []
      outDir := some (if ssr then ("./dist/server").data else ("./dist/client").data)
      target := ("esnext").data
      ssrManifest := !ssr
      ssr := ssr
      optimizeDepsExclude := [("express").data]
      pluginNames := [] }
    clientPluginModules := []
    serverPluginModules := [] }

/-- getViteProdConfig: fold the configureVite hooks over the prod literal. -/
def getViteProdConfig (ssr : Bool) (hooks : List CfgHook) : VitePluginConfig :=
  hooks.foldl (fun c h => h c) (viteProdBaseConfig ssr)

/-- The HTML shell written by createViteEnvironment (dev scaffold),
lines 563-572 of the orchestrator source. -/
def devIndexHtml : Str :=
  ("<!DOCTYPE html>\n<html lang=\"en\">\n  <head>\n    <!--app-head-->\n    <script type=\"module\" src=\"/client.ts\"></script>\n  </head>\n  <body>\n    <div id=\"app\"><!--app-html--></div>\n  </body>\n</html>").data

/-! ### The reload sub-procedure (reloadPlugins) -/

/-- A plugin instance as the reload sub-procedure sees it: an identity,
the _vitePlugin marker, and whether the optional init / postInit hooks
are present. -/
structure Plugin where
  pid : Nat
  vitePluginTag : Bool
  hasInit : Bool
  hasPostInit : Bool
deriving DecidableEq

/-- The backwards splice loop of reloadPlugins:
"for (let i = plugins.length - 1; i >= 0; i--) if (plugins[i]._vitePlugin) plugins.splice(i, 1)".
The first argument is the current list, the second the next index to
examine plus one. -/
def spliceRemoveTagged : List Plugin → Nat → List Plugin
  | l, 0 => l
  | l, i + 1 =>
    match l[i]? with
    | some p => if p.vitePluginTag then spliceRemoveTagged (l.eraseIdx i) i
                else spliceRemoveTagged l i
    | none => spliceRemoveTagged l i

/-- Step 1 of the reload sub-procedure: purge every marked entry. -/
def removeTagged (l : List Plugin) : List Plugin := spliceRemoveTagged l l.length

/-- An invocation of a sub-lifecycle hook on a fresh instance. -/
inductive HookEv
  | initHook (p : Plugin)
  | postInitHook (p : Plugin)
deriving DecidableEq

/-- Setting the _vitePlugin marker on a fresh instance. -/
def setTag (p : Plugin) : Plugin := { p with vitePluginTag := true }

/-- reloadPlugins (orchestrator source lines 724-766): purge marked
entries, append the fresh client and server instances (tagged in place
by the init loops), and run init on every fresh client then server
instance followed by postInit on every fresh client then server
instance.  Returns the resulting shared plugin list and the hook
invocation trace. -/
def reloadPlugins (plugins clientGen serverGen : List Plugin) :
    List Plugin × List HookEv :=
  let purged := removeTagged plugins
  let newList := purged ++ clientGen.map setTag ++ serverGen.map setTag
  let evs :=
    ((clientGen.map setTag).filter (·.hasInit)).map HookEv.initHook
    ++ ((serverGen.map setTag).filter (·.hasInit)).map HookEv.initHook
    ++ ((clientGen.map setTag).filter (·.hasPostInit)).map HookEv.postInitHook
    ++ ((serverGen.map setTag).filter (·.hasPostInit)).map HookEv.postInitHook
  (newList, evs)

/-- N successive invocations of the reload sub-procedure, each with the
pair of fresh client/server instance lists produced by that reload's
registry factories. -/
def reloadSeq (plugins0 : List Plugin) (gens : List (List Plugin × List Plugin)) :
    List Plugin :=
  gens.foldl (fun st g => (reloadPlugins st g.1 g.2).1) plugins0

/-! ### postInitExpress: the main mode transition -/

/-- The minimist flags the transition reads. -/
structure Args where
  build : Bool
  preview : Bool
deriving DecidableEq

/-- The externally observable actions of postInitExpress, in order. -/
inductive OrchEv
  | materializeEnv (serverMods clientMods : List Str)
  | runBuild (cfg : ViteInlineConfig)
  | startDevServer (cfg : ViteInlineConfig)
  | devMiddleware
  | useCompression
  | useSirv (dir : Str)
  | appUseRouter
  | callStop
  | runReload
  | callInitViteHook (i : Nat)
  | callPostInitViteHook (i : Nat)
deriving DecidableEq

/-- restartServer: dev mode materializes the environment, starts the
dev server and mounts its middlewares; production mode mounts
compression and sirv.  Both end by running the reload sub-procedure. -/
def restartServerTrace (isProd : Bool) (hooks : List CfgHook) : List OrchEv :=
  if !isProd then
    let viteConfig := getViteDevConfig hooks
    [ .materializeEnv viteConfig.serverPluginModules viteConfig.clientPluginModules,
      .startDevServer viteConfig.config, .devMiddleware, .runReload ]
  else
    [ .useCompression, .useSirv (("./.vite/dist/client").data), .runReload ]

/-- The action trace of postInitExpress (orchestrator source lines
807-845).  With the build flag: client build, then SSR build, then the
stop callback, and nothing else.  Otherwise the preview flag forces
production mode, restartServer runs, the router is mounted, and the
initVite then postInitVite hooks run in registration order. -/
def postInitExpressTrace (args : Args) (isProduction : Bool) (hooks : List CfgHook)
    (numInitViteHooks numPostInitViteHooks : Nat) : List OrchEv :=
  if args.build then
    let viteConfig := getViteProdConfig false hooks
    let viteConfigSSR := getViteProdConfig true hooks
    [ .materializeEnv viteConfig.serverPluginModules viteConfig.clientPluginModules,
      .runBuild viteConfig.config,
      .materializeEnv viteConfigSSR.serverPluginModules viteConfigSSR.clientPluginModules,
      .runBuild viteConfigSSR.config,
      .callStop ]
  else
    let isProd := isProduction || args.preview
    restartServerTrace isProd hooks ++ [.appUseRouter]
      ++ (List.range numInitViteHooks).map OrchEv.callInitViteHook
      ++ (List.range numPostInitViteHooks).map OrchEv.callPostInitViteHook

/-! ### HTML template generation -/

/-- The app-head placeholder token. -/
def headMarker : Str := ("<!--app-head-->").data

/-- The app-html placeholder token. -/
def htmlMarker : Str := ("<!--app-html-->").data

/-- internalGenerateHTMLTemplate (orchestrator source lines 688-704),
applied to the resolved shell template.  headSplit[1] being undefined
makes the subsequent .split call throw (modelled as none); bodySplit[1]
being undefined is silently coerced to the string "undefined" by the JS
string concatenation. -/
def internalGenerateHTMLTemplate (template head body : Str) : Option Str :=
  let headSplit := splitOnSub template headMarker
  match headSplit.get? 1 with
  | none => none
  | some afterHeadMarker =>
    let bodySplit := splitOnSub afterHeadMarker htmlMarker
    let piece1 := headSplit.headD []
    let piece2 := bodySplit.headD []
    let piece3 := (bodySplit.get? 1).getD (("undefined").data)
    some (piece1 ++ head ++ piece2 ++ body ++ piece3)

/-- The baseline head tags generateHTMLTemplate prepends to the
caller-supplied head content. -/
def baselineHeadTags : Str :=
  ("<meta charset=\"UTF-8\" /><meta name=\"viewport\" content=\"width=device-width, initial-scale=1.0\" />").data

/-- generateHTMLTemplate (lines 706-709): prepends the baseline head
tags, then delegates to the internal templating routine. -/
def generateHTMLTemplate (template head body : Str) : Option Str :=
  internalGenerateHTMLTemplate template (baselineHeadTags ++ head) body

/-- The shell template the templating routines read in a given state:
the dev server's transformIndexHtml output when a dev server exists,
else the cached production template, else the empty string. -/
def resolveTemplate (viteActive : Bool) (devTransformed : Str)
    (cachedProdTemplate : Option Str) : Str :=
  if viteActive then devTransformed else cachedProdTemplate.getD []

/-- generateHeadContent (lines 711-714): template with empty head and
body via the internal routine (bypassing generateHTMLTemplate and its
baseline tags) and cut out the result's span between the first "<head>"
and the following "</head>".  An absent "<head>" makes the [1] access
yield undefined and the .split on it throw (none). -/
def generateHeadContent (template : Str) : Option Str :=
  match internalGenerateHTMLTemplate template [] [] with
  | none => none
  | some htmlTemplate =>
    match (splitOnSub htmlTemplate (("<head>").data)).get? 1 with
    | none => none
    | some afterHead => some ((splitOnSub afterHead (("</head>").data)).headD [])

/-- generateHeadContent as reachable from a full orchestrator state. -/
def generateHeadContentAt (viteActive : Bool) (devTransformed : Str)
    (cachedProdTemplate : Option Str) : Option Str :=
  generateHeadContent (resolveTemplate viteActive devTransformed cachedProdTemplate)

/-! ### Specification-side notions used by the claims -/

/-- A traversal edge of the module graph: node s exists, lists t among
its imported ids, and t itself resolves to a node. -/
def EdgeId (g : ModuleGraph) (s t : Str) : Prop :=
  ∃ n, findNode g s = some n ∧ (some t) ∈ n.deps ∧ (findNode g t).isSome = true

/-- The ids reachable from a traversal root along graph edges. -/
inductive ReachId (g : ModuleGraph) (root : Str) : Str → Prop
  | refl : (findNode g root).isSome = true → ReachId g root root
  | step {s t : Str} : ReachId g root s → EdgeId g s t → ReachId g root t

/-- Every node of the graph records its own lookup key as its id (what
vite's module graph guarantees for getModuleById). -/
def wellFormedGraph (g : ModuleGraph) : Bool :=
  g.all (fun kv => match kv.2 with
    | .ok n => decide (n.id = some kv.1)
    | .error _ => true)

/-- No lookup in the graph throws. -/
def graphThrowFree (g : ModuleGraph) : Bool :=
  g.all (fun kv => match kv.2 with
    | .ok _ => true
    | .error _ => false)

/-- A configureVite hook that contributes module lists but leaves the
inline bundler config alone. -/
def cfgPreserving (h : CfgHook) : Prop := ∀ c, (h c).config = c.config

/-- Recognizer for build-tool invocations in an orchestrator trace. -/
def isRunBuild : OrchEv → Bool
  | .runBuild _ => true
  | _ => false

/-- Recognizer for server-starting or middleware-mounting actions. -/
def isServerOrMount : OrchEv → Bool
  | .startDevServer _ => true
  | .devMiddleware => true
  | .useCompression => true
  | .useSirv _ => true
  | .appUseRouter => true
  | _ => false

/-- Recognizer for init-hook invocations in a reload trace. -/
def isInitEv : HookEv → Bool
  | .initHook _ => true
  | .postInitHook _ => false

/-- Recognizer for postInit-hook invocations in a reload trace. -/
def isPostInitEv : HookEv → Bool
  | .initHook _ => false
  | .postInitHook _ => true

/-- Specification-side view of getDeps' loop: the concatenation of the
per-module asset contributions, before deduplication. -/
def getDepsRawDeps (manifestJson : List (Str × List Str))
    (viteDevServer : Option ModuleGraph) (isProduction : Bool) (ms : List Str) : List Str :=
  ms.foldr (fun m acc => (getDepsStep manifestJson viteDevServer isProduction m).1 ++ acc) []

/-- Specification-side view of getDeps' loop: the concatenation of the
per-module warnings. -/
def getDepsRawWarns (manifestJson : List (Str × List Str))
    (viteDevServer : Option ModuleGraph) (isProduction : Bool) (ms : List Str) : List Str :=
  ms.foldr (fun m acc => (getDepsStep manifestJson viteDevServer isProduction m).2 ++ acc) []

/-- The ids the graph's nodes carry — the only strings the traversal
can ever add to its visited set. -/
def idsOf (g : ModuleGraph) : List Str :=
  g.filterMap (fun kv => match kv.2 with
    | .ok n => n.id
    | .error _ => none)

/-- The traversal's termination measure: how many graph ids are not yet
in the visited set. -/
def unseenCount (g : ModuleGraph) (seen : List Str) : Nat :=
  ((idsOf g).filter (fun x => decide (x ∉ seen))).length

/-- The spec's cycle example: entry A with A → B, B → A (a cycle) and
B → C. -/
def exampleCycleGraph : ModuleGraph :=
  [(("A").data, .ok ⟨some (("A").data), [some (("B").data)]⟩),
   (("B").data, .ok ⟨some (("B").data), [some (("A").data), some (("C").data)]⟩),
   (("C").data, .ok ⟨some (("C").data), []⟩)]

/-! ## Theorems -/

theorem mem_insertionDedupGo {α : Type} [DecidableEq α] (x : α) :
    ∀ (l seen : List α), x ∈ insertionDedupGo seen l ↔ x ∈ l ∧ x ∉ seen := by
  intro l
  induction l with
  | nil => intro seen; simp [insertionDedupGo]
  | cons y ys ih =>
    intro seen
    by_cases hy : y ∈ seen
    · simp only [insertionDedupGo, if_pos hy, ih, List.mem_cons]
      constructor
      · rintro ⟨hx, hns⟩; exact ⟨Or.inr hx, hns⟩
      · rintro ⟨hx | hx, hns⟩
        · exact absurd (hx ▸ hy) hns
        · exact ⟨hx, hns⟩
    · simp only [insertionDedupGo, if_neg hy, List.mem_cons, ih]
      constructor
      · rintro (rfl | ⟨hx, hns⟩)
        · exact ⟨Or.inl rfl, hy⟩
        · exact ⟨Or.inr hx, fun hs => hns (Or.inr hs)⟩
      · rintro ⟨rfl | hx, hns⟩
        · exact Or.inl rfl
        · rcases eq_or_ne x y with rfl | hxy
          · exact Or.inl rfl
          · refine Or.inr ⟨hx, fun hs => ?_⟩
            rcases hs with h | h
            · exact hxy h
            · exact hns h

theorem mem_insertionDedup {α : Type} [DecidableEq α] (x : α) (l : List α) :
    x ∈ insertionDedup l ↔ x ∈ l := by
  simp [insertionDedup, mem_insertionDedupGo]

theorem nodup_insertionDedupGo {α : Type} [DecidableEq α] :
    ∀ (l seen : List α), (insertionDedupGo seen l).Nodup := by
  intro l
  induction l with
  | nil => intro seen; simp [insertionDedupGo]
  | cons y ys ih =>
    intro seen
    by_cases hy : y ∈ seen
    · simpa [insertionDedupGo, if_pos hy] using ih seen
    · simp only [insertionDedupGo, if_neg hy, List.nodup_cons]
      refine ⟨fun hmem => ?_, ih (y :: seen)⟩
      exact ((mem_insertionDedupGo y ys (y :: seen)).mp hmem).2 (List.mem_cons_self y seen)

theorem nodup_insertionDedup {α : Type} [DecidableEq α] (l : List α) :
    (insertionDedup l).Nodup :=
  nodup_insertionDedupGo l []

/-- The per-module loop of getDeps concatenates independent per-module
contributions (there is no state shared between iterations other than
the result accumulators). -/
theorem getDeps_loop_append (manifestJson : List (Str × List Str))
    (viteDevServer : Option ModuleGraph) (isProduction : Bool) :
    ∀ (ms : List Str) (acc : List Str × List Str),
      ms.foldl (fun (acc : List Str × List Str) (m : Str) =>
        let r := getDepsStep manifestJson viteDevServer isProduction m
        (acc.1 ++ r.1, acc.2 ++ r.2)) acc
      = (acc.1 ++ getDepsRawDeps manifestJson viteDevServer isProduction ms,
         acc.2 ++ getDepsRawWarns manifestJson viteDevServer isProduction ms) := by
  intro ms
  induction ms with
  | nil => intro acc; simp [getDepsRawDeps, getDepsRawWarns]
  | cons m rest ih =>
    intro acc
    simp only [List.foldl_cons]
    rw [ih]
    simp [getDepsRawDeps, getDepsRawWarns]

/-- getDeps splits into the deduplicated concatenation of per-module
asset contributions and the concatenation of per-module warnings. -/
theorem getDeps_eq (manifestJson : List (Str × List Str))
    (viteDevServer : Option ModuleGraph) (isProduction : Bool) (modules : List Str) :
    getDeps manifestJson viteDevServer isProduction modules
    = ⟨insertionDedup
        (getDepsRawDeps manifestJson viteDevServer isProduction (modules.map normalizeModule)),
       getDepsRawWarns manifestJson viteDevServer isProduction (modules.map normalizeModule)⟩ := by
  unfold getDeps
  simp only [getDeps_loop_append]
  simp

/-- C1: on the RuntimeContext built in initExpress, getDeps is wired as
"(modules) => getDeps(modules, vite)", omitting the isProduction
argument, which therefore defaults to false; and in production mode no
dev server is ever created, so the server argument is undefined.  The
wired resolver hence returns the empty list for every entry list and
every loaded manifest — it does not perform the manifest lookup the
claim describes.  The second conjunct evaluates it on a concrete
manifest that maps "client.ts" to an asset list. -/
theorem claim_C1_wired_getDeps_empty_in_prod :
    (∀ (manifestJson : List (Str × List Str)) (modules : List Str),
      initViteGetDeps manifestJson none modules = [])
    ∧ initViteGetDeps [(("client.ts").data, [("a.js").data])] none [("client.ts").data] = [] := by
  constructor
  · intro manifestJson modules
    unfold initViteGetDeps
    rw [getDeps_eq]
    have : ∀ (l : List Str), getDepsRawDeps manifestJson none false l = [] := by
      intro l
      induction l with
      | nil => rfl
      | cons x xs ih => simpa [getDepsRawDeps, getDepsStep] using ih
    simp [this, insertionDedup, insertionDedupGo]
  · rfl

/-- C2: in production mode (isProduction = true), with the loaded
manifest mapping client.ts to a.js, b.js and admin.ts to a.js, c.js,
the resolver returns the found lists concatenated in entry order and
deduplicated preserving first occurrence: a.js, b.js, c.js. -/
theorem claim_C2_manifest_example :
    (getDeps [(("client.ts").data, [("a.js").data, ("b.js").data]),
              (("admin.ts").data, [("a.js").data, ("c.js").data])]
      none true [("client.ts").data, ("admin.ts").data]).deps
    = [("a.js").data, ("b.js").data, ("c.js").data] := by
  rfl

/-- C3: the module-level construction of manifestJson wraps JSON.parse
in no try/catch, so a parse failure on malformed manifest content
propagates out of the module load instead of being logged as a warning
with an empty mapping (the behaviour the spec and the repository's own
test expect). -/
theorem claim_C3_malformed_manifest_propagates
    (parseJson : Str → Except Str (List (Str × List Str))) (cwd content errMsg : Str)
    (hthrow : parseJson content = .error errMsg) :
    loadManifestJson parseJson cwd content = .error errMsg := by
  simp [loadManifestJson, hthrow, Except.map]

theorem claim_C3_witness :
    (fun _ : Str => (Except.error (("SyntaxError").data) : Except Str (List (Str × List Str))))
        (("invalid json \x7b").data) = .error (("SyntaxError").data)
    ∧ loadManifestJson (fun _ => .error (("SyntaxError").data)) (("/app").data)
        (("invalid json \x7b").data) = .error (("SyntaxError").data) :=
  ⟨rfl, claim_C3_malformed_manifest_propagates _ _ _ _ rfl⟩

/-- A fold of config-preserving hooks never changes the inline config. -/
theorem foldl_cfgPreserving (hooks : List CfgHook) (hcfg : ∀ h ∈ hooks, cfgPreserving h) :
    ∀ (c : VitePluginConfig), (hooks.foldl (fun c h => h c) c).config = c.config := by
  induction hooks with
  | nil => intro c; rfl
  | cons h rest ih =>
    intro c
    have hh : cfgPreserving h := hcfg h (List.mem_cons_self h rest)
    have hr : ∀ h' ∈ rest, cfgPreserving h' := fun h' hm => hcfg h' (List.mem_cons_of_mem h hm)
    simp only [List.foldl_cons]
    rw [ih hr (h c), hh c]

theorem getViteProdConfig_config (ssr : Bool) (hooks : List CfgHook)
    (hcfg : ∀ h ∈ hooks, cfgPreserving h) :
    (getViteProdConfig ssr hooks).config = (viteProdBaseConfig ssr).config :=
  foldl_cfgPreserving hooks hcfg _

/-- C5: with the build flag, the main transition performs exactly two
build passes — the client-only production config first, the SSR config
second — ends with exactly one stop-callback invocation as its final
action, and never starts a server or mounts middleware; when the
configuration hooks leave the inline bundler config alone, the second
pass is SSR-enabled with the distinct ./dist/server output directory
and its input set contains the server registry (server.ts), the client
bootstrap (client.ts) and the client plugin registry
(clientPlugins.ts). -/
theorem claim_C5_build_branch (args : Args) (isProduction : Bool) (hooks : List CfgHook)
    (numInitViteHooks numPostInitViteHooks : Nat) (hbuild : args.build = true)
    (hcfg : ∀ h ∈ hooks, cfgPreserving h) :
    (postInitExpressTrace args isProduction hooks numInitViteHooks
        numPostInitViteHooks).filter isRunBuild
      = [OrchEv.runBuild (getViteProdConfig false hooks).config,
         OrchEv.runBuild (getViteProdConfig true hooks).config]
    ∧ (postInitExpressTrace args isProduction hooks numInitViteHooks
        numPostInitViteHooks).count OrchEv.callStop = 1
    ∧ (postInitExpressTrace args isProduction hooks numInitViteHooks
        numPostInitViteHooks).getLast? = some OrchEv.callStop
    ∧ (postInitExpressTrace args isProduction hooks numInitViteHooks
        numPostInitViteHooks).filter isServerOrMount = []
    ∧ (getViteProdConfig false hooks).config.ssr = false
    ∧ (getViteProdConfig false hooks).config.outDir = some (("./dist/client").data)
    ∧ (getViteProdConfig true hooks).config.ssr = true
    ∧ (getViteProdConfig true hooks).config.outDir = some (("./dist/server").data)
    ∧ (getViteProdConfig false hooks).config.outDir
        ≠ (getViteProdConfig true hooks).config.outDir
    ∧ ("./.vite/server.ts").data ∈ (getViteProdConfig true hooks).config.rollupInput
    ∧ ("./.vite/client.ts").data ∈ (getViteProdConfig true hooks).config.rollupInput
    ∧ ("./.vite/clientPlugins.ts").data ∈ (getViteProdConfig true hooks).config.rollupInput := by
  have hcfalse := getViteProdConfig_config false hooks hcfg
  have hctrue := getViteProdConfig_config true hooks hcfg
  refine ⟨?_, ?_, ?_, ?_, ?_, ?_, ?_, ?_, ?_, ?_, ?_, ?_⟩
  · simp [postInitExpressTrace, hbuild, isRunBuild]
  · simp [postInitExpressTrace, hbuild, List.count_cons]
  · simp [postInitExpressTrace, hbuild]
  · simp [postInitExpressTrace, hbuild, isServerOrMount]
  · rw [hcfalse]; rfl
  · rw [hcfalse]; rfl
  · rw [hctrue]; rfl
  · rw [hctrue]; rfl
  · rw [hcfalse, hctrue]; decide
  · rw [hctrue]; decide
  · rw [hctrue]; decide
  · rw [hctrue]; decide

theorem claim_C5_witness :
    (Args.mk true false).build = true
    ∧ (∀ h ∈ ([] : List CfgHook), cfgPreserving h)
    ∧ ((postInitExpressTrace (Args.mk true false) false [] 0 0).filter isRunBuild
      = [OrchEv.runBuild (getViteProdConfig false []).config,
         OrchEv.runBuild (getViteProdConfig true []).config]
    ∧ (postInitExpressTrace (Args.mk true false) false [] 0 0).count OrchEv.callStop = 1
    ∧ (postInitExpressTrace (Args.mk true false) false [] 0 0).getLast?
        = some OrchEv.callStop
    ∧ (postInitExpressTrace (Args.mk true false) false [] 0 0).filter isServerOrMount = []
    ∧ (getViteProdConfig false []).config.ssr = false
    ∧ (getViteProdConfig false []).config.outDir = some (("./dist/client").data)
    ∧ (getViteProdConfig true []).config.ssr = true
    ∧ (getViteProdConfig true []).config.outDir = some (("./dist/server").data)
    ∧ (getViteProdConfig false []).config.outDir ≠ (getViteProdConfig true []).config.outDir
    ∧ ("./.vite/server.ts").data ∈ (getViteProdConfig true []).config.rollupInput
    ∧ ("./.vite/client.ts").data ∈ (getViteProdConfig true []).config.rollupInput
    ∧ ("./.vite/clientPlugins.ts").data ∈ (getViteProdConfig true []).config.rollupInput) :=
  ⟨rfl, fun h hm => absurd hm (List.not_mem_nil h),
   claim_C5_build_branch (Args.mk true false) false [] 0 0 rfl
     (fun h hm => absurd hm (List.not_mem_nil h))⟩

/-- The backwards splice loop removes exactly the marked entries among
the first i positions and leaves the rest untouched. -/
theorem spliceRemoveTagged_eq :
    ∀ (i : Nat) (l : List Plugin),
      spliceRemoveTagged l i
        = (l.take i).filter (fun p => !p.vitePluginTag) ++ l.drop i := by
  intro i
  induction i with
  | zero => intro l; simp [spliceRemoveTagged]
  | succ i ih =>
    intro l
    cases hget : l[i]? with
    | none =>
      have hlen : l.length ≤ i := by
        by_contra hlt
        rw [List.getElem?_eq_getElem (by omega)] at hget
        exact Option.noConfusion hget
      simp only [spliceRemoveTagged, hget]
      rw [ih l, List.take_of_length_le hlen, List.take_of_length_le (by omega),
          List.drop_of_length_le hlen, List.drop_of_length_le (by omega)]
    | some p =>
      have hlt : i < l.length := by
        by_contra hle
        rw [List.getElem?_eq_none (by omega)] at hget
        exact Option.noConfusion hget
      have htake : l.take (i + 1) = l.take i ++ [p] := by
        rw [List.take_succ, hget]; rfl
      have hlen_take : (l.take i).length = i := List.length_take_of_le (Nat.le_of_lt hlt)
      simp only [spliceRemoveTagged, hget]
      by_cases htag : p.vitePluginTag
      · rw [if_pos htag, ih (l.eraseIdx i)]
        have herase : l.eraseIdx i = l.take i ++ l.drop (i + 1) :=
          List.eraseIdx_eq_take_drop_succ l i
        have htake' : (l.eraseIdx i).take i = l.take i := by
          rw [herase, List.take_left' hlen_take]
        have hdrop' : (l.eraseIdx i).drop i = l.drop (i + 1) := by
          rw [herase, List.drop_left' hlen_take]
        rw [htake', hdrop', htake, List.filter_append]
        simp [htag]
      · rw [if_neg htag, ih l, htake, List.filter_append]
        have hdrop : l.drop i = p :: l.drop (i + 1) := by
          rw [List.drop_eq_getElem_cons hlt]
          have h := List.getElem?_eq_getElem hlt
          rw [hget] at h
          rw [Option.some.inj h]
        rw [hdrop]
        simp [htag]

/-- Step 1 of the reload sub-procedure purges exactly the entries that
carry the _vitePlugin marker. -/
theorem removeTagged_eq_filter (l : List Plugin) :
    removeTagged l = l.filter (fun p => !p.vitePluginTag) := by
  rw [removeTagged, spliceRemoveTagged_eq l.length l]
  simp

/-- The plugin list produced by one reload: the unmarked survivors
followed by the freshly tagged client and server instances. -/
theorem reloadPlugins_fst (st clientGen serverGen : List Plugin) :
    (reloadPlugins st clientGen serverGen).1
      = st.filter (fun p => !p.vitePluginTag)
        ++ clientGen.map setTag ++ serverGen.map setTag := by
  simp [reloadPlugins, removeTagged_eq_filter]

theorem reloadSeq_filter_inv (base : List Plugin) :
    ∀ (gens : List (List Plugin × List Plugin)) (st : List Plugin),
      st.filter (fun p => !p.vitePluginTag) = base →
      (reloadSeq st gens).filter (fun p => !p.vitePluginTag) = base := by
  intro gens
  induction gens with
  | nil => intro st h; exact h
  | cons g rest ih =>
    intro st h
    have hstep : ((reloadPlugins st g.1 g.2).1).filter (fun p => !p.vitePluginTag) = base := by
      rw [reloadPlugins_fst, List.filter_append, List.filter_append]
      have h1 : (st.filter (fun p => !p.vitePluginTag)).filter (fun p => !p.vitePluginTag)
          = st.filter (fun p => !p.vitePluginTag) := by
        apply List.filter_eq_self.mpr
        intro a ha
        exact (List.mem_filter.mp ha).2
      have h2 : ∀ (gen : List Plugin),
          (gen.map setTag).filter (fun p => !p.vitePluginTag) = [] := by
        intro gen
        apply List.filter_eq_nil.mpr
        intro a ha
        rcases List.mem_map.mp ha with ⟨b, _, rfl⟩
        simp [setTag]
      rw [h1, h2, h2, h, List.append_nil, List.append_nil]
    exact ih _ hstep

/-- C4: after any positive number of reloads, the shared plugin list is
exactly the plugins present before the first reload (assuming none of
them carried the injected marker) followed by the tagged instances of
the last generation only — injected plugins never accumulate. -/
theorem claim_C4_reload_no_accumulation (plugins0 : List Plugin)
    (gens : List (List Plugin × List Plugin)) (lastGen : List Plugin × List Plugin)
    (h0 : ∀ p ∈ plugins0, p.vitePluginTag = false) :
    reloadSeq plugins0 (gens ++ [lastGen])
      = plugins0 ++ lastGen.1.map setTag ++ lastGen.2.map setTag := by
  have hbase : plugins0.filter (fun p => !p.vitePluginTag) = plugins0 := by
    apply List.filter_eq_self.mpr
    intro a ha
    simp [h0 a ha]
  have hmid : (reloadSeq plugins0 gens).filter (fun p => !p.vitePluginTag) = plugins0 :=
    reloadSeq_filter_inv plugins0 gens plugins0 hbase
  rw [reloadSeq, List.foldl_append]
  simp only [List.foldl_cons, List.foldl_nil]
  rw [reloadPlugins_fst]
  rw [show ∀ (l : List (List Plugin × List Plugin)) (st : List Plugin),
        l.foldl (fun st g => (reloadPlugins st g.1 g.2).1) st = reloadSeq st l
      from fun _ _ => rfl]
  rw [hmid]

theorem claim_C4_witness :
    (∀ p ∈ [Plugin.mk 1 false true true], p.vitePluginTag = false)
    ∧ reloadSeq [Plugin.mk 1 false true true]
        ([([Plugin.mk 10 false true true], [Plugin.mk 20 false true true])]
          ++ [([Plugin.mk 11 false false true], [Plugin.mk 21 false true false])])
      = [Plugin.mk 1 false true true]
        ++ [Plugin.mk 11 false false true].map setTag
        ++ [Plugin.mk 21 false true false].map setTag :=
  ⟨by decide,
   claim_C4_reload_no_accumulation [Plugin.mk 1 false true true]
     [([Plugin.mk 10 false true true], [Plugin.mk 20 false true true])]
     ([Plugin.mk 11 false false true], [Plugin.mk 21 false true false])
     (by decide)⟩

/-- In a trace that is all-init events followed by all-postInit events,
every init index precedes every postInit index. -/
theorem init_idx_lt_post_idx (inits posts : List HookEv)
    (hI : ∀ e ∈ inits, isInitEv e = true) (hP : ∀ e ∈ posts, isPostInitEv e = true)
    (i j : Nat)
    (hi : ((inits ++ posts)[i]?).map isInitEv = some true)
    (hj : ((inits ++ posts)[j]?).map isPostInitEv = some true) : i < j := by
  rcases Option.map_eq_some'.mp hi with ⟨ei, hei, hinit⟩
  rcases Option.map_eq_some'.mp hj with ⟨ej, hej, hpost⟩
  have hnot : ∀ e : HookEv, isInitEv e = true → isPostInitEv e = true → False := by
    intro e h1 h2
    cases e <;> simp [isInitEv, isPostInitEv] at h1 h2
  have hilt : i < inits.length := by
    by_contra hge
    have hge' : inits.length ≤ i := Nat.le_of_not_lt hge
    rw [List.getElem?_append_right hge'] at hei
    have : ei ∈ posts := List.getElem?_mem hei
    exact hnot ei hinit (hP ei this)
  have hjge : inits.length ≤ j := by
    by_contra hlt
    have hlt' : j < inits.length := Nat.lt_of_not_le hlt
    rw [List.getElem?_append, if_pos hlt'] at hej
    have : ej ∈ inits := List.getElem?_mem hej
    exact hnot ej (hI ej this) hpost
  exact Nat.lt_of_lt_of_le hilt hjge

/-- C9: within one reload, every init-hook invocation precedes every
postInit-hook invocation, and the postInit invocations are the fresh
client instances in registration order followed by the fresh server
instances in registration order (likewise for the init invocations). -/
theorem claim_C9_init_before_postInit (plugins clientGen serverGen : List Plugin)
    (i j : Nat)
    (hi : (((reloadPlugins plugins clientGen serverGen).2)[i]?).map isInitEv = some true)
    (hj : (((reloadPlugins plugins clientGen serverGen).2)[j]?).map isPostInitEv = some true) :
    i < j
    ∧ ((reloadPlugins plugins clientGen serverGen).2).filter isInitEv
        = (((clientGen.map setTag).filter (·.hasInit)).map HookEv.initHook)
          ++ (((serverGen.map setTag).filter (·.hasInit)).map HookEv.initHook)
    ∧ ((reloadPlugins plugins clientGen serverGen).2).filter isPostInitEv
        = (((clientGen.map setTag).filter (·.hasPostInit)).map HookEv.postInitHook)
          ++ (((serverGen.map setTag).filter (·.hasPostInit)).map HookEv.postInitHook) := by
  have hevs : (reloadPlugins plugins clientGen serverGen).2
      = ((((clientGen.map setTag).filter (·.hasInit)).map HookEv.initHook)
          ++ (((serverGen.map setTag).filter (·.hasInit)).map HookEv.initHook))
        ++ ((((clientGen.map setTag).filter (·.hasPostInit)).map HookEv.postInitHook)
          ++ (((serverGen.map setTag).filter (·.hasPostInit)).map HookEv.postInitHook)) := by
    simp [reloadPlugins]
  refine ⟨?_, ?_, ?_⟩
  · rw [hevs] at hi hj
    refine init_idx_lt_post_idx _ _ ?_ ?_ i j hi hj
    · intro e he
      rcases List.mem_append.mp he with h | h <;>
        · rcases List.mem_map.mp h with ⟨b, _, rfl⟩; rfl
    · intro e he
      rcases List.mem_append.mp he with h | h <;>
        · rcases List.mem_map.mp h with ⟨b, _, rfl⟩; rfl
  · have hkeep : ∀ (l : List Plugin),
        ((l.map HookEv.initHook).filter isInitEv) = l.map HookEv.initHook := by
      intro l
      apply List.filter_eq_self.mpr
      intro a ha
      rcases List.mem_map.mp ha with ⟨b, _, rfl⟩
      rfl
    have hdrop : ∀ (l : List Plugin),
        ((l.map HookEv.postInitHook).filter isInitEv) = [] := by
      intro l
      apply List.filter_eq_nil.mpr
      intro a ha
      rcases List.mem_map.mp ha with ⟨b, _, rfl⟩
      simp [isInitEv]
    rw [hevs, List.filter_append, List.filter_append, List.filter_append,
        hkeep, hkeep, hdrop, hdrop]
    simp
  · have hkeep : ∀ (l : List Plugin),
        ((l.map HookEv.postInitHook).filter isPostInitEv) = l.map HookEv.postInitHook := by
      intro l
      apply List.filter_eq_self.mpr
      intro a ha
      rcases List.mem_map.mp ha with ⟨b, _, rfl⟩
      rfl
    have hdrop : ∀ (l : List Plugin),
        ((l.map HookEv.initHook).filter isPostInitEv) = [] := by
      intro l
      apply List.filter_eq_nil.mpr
      intro a ha
      rcases List.mem_map.mp ha with ⟨b, _, rfl⟩
      simp [isPostInitEv]
    rw [hevs, List.filter_append, List.filter_append, List.filter_append,
        hdrop, hdrop, hkeep, hkeep]
    simp

theorem claim_C9_witness :
    ((((reloadPlugins [] [Plugin.mk 10 false true true]
        [Plugin.mk 20 false true true]).2)[0]?).map isInitEv = some true)
    ∧ ((((reloadPlugins [] [Plugin.mk 10 false true true]
        [Plugin.mk 20 false true true]).2)[2]?).map isPostInitEv = some true)
    ∧ ((0 : Nat) < 2
      ∧ ((reloadPlugins [] [Plugin.mk 10 false true true]
            [Plugin.mk 20 false true true]).2).filter isInitEv
          = ((([Plugin.mk 10 false true true].map setTag).filter (·.hasInit)).map HookEv.initHook)
            ++ ((([Plugin.mk 20 false true true].map setTag).filter (·.hasInit)).map HookEv.initHook)
      ∧ ((reloadPlugins [] [Plugin.mk 10 false true true]
            [Plugin.mk 20 false true true]).2).filter isPostInitEv
          = ((([Plugin.mk 10 false true true].map setTag).filter (·.hasPostInit)).map HookEv.postInitHook)
            ++ ((([Plugin.mk 20 false true true].map setTag).filter (·.hasPostInit)).map HookEv.postInitHook)) :=
  ⟨by decide, by decide,
   claim_C9_init_before_postInit [] [Plugin.mk 10 false true true]
     [Plugin.mk 20 false true true] 0 2 (by decide) (by decide)⟩

/-! ### String lemmas for the URL rewrite (C8) -/

theorem isPrefixOf_false_iff (a b : Str) : a.isPrefixOf b = false ↔ ¬ (a <+: b) := by
  rw [← List.isPrefixOf_iff_prefix]
  cases h : a.isPrefixOf b <;> simp

theorem containsSub_iff (l pat : Str) :
    containsSub l pat = true ↔ ∃ i, pat.isPrefixOf (l.drop i) = true := by
  unfold containsSub
  rw [List.any_eq_true]
  constructor
  · rintro ⟨i, _, hp⟩; exact ⟨i, hp⟩
  · rintro ⟨i, hp⟩
    by_cases hle : i ≤ l.length
    · exact ⟨i, List.mem_range.mpr (by omega), hp⟩
    · rw [List.drop_eq_nil_of_le (by omega)] at hp
      have hpat : pat = [] := by
        cases pat with
        | nil => rfl
        | cons c cs => simp [List.isPrefixOf] at hp
      refine ⟨0, List.mem_range.mpr (by omega), ?_⟩
      rw [hpat]
      simp [List.isPrefixOf]

theorem containsSub_of_decomp (a pat b : Str) : containsSub (a ++ pat ++ b) pat = true := by
  rw [containsSub_iff]
  refine ⟨a.length, ?_⟩
  rw [List.append_assoc, List.drop_left]
  exact List.isPrefixOf_iff_prefix.mpr (List.prefix_append pat b)

theorem getLast?_filter_range (p : Nat → Bool) :
    ∀ (n k : Nat), k < n → p k = true → (∀ j, k < j → p j = false) →
      ((List.range n).filter p).getLast? = some k := by
  intro n
  induction n with
  | zero => intro k hk; omega
  | succ n ih =>
    intro k hk hp hall
    rw [List.range_succ, List.filter_append]
    by_cases hkn : k = n
    · subst hkn
      simp only [List.filter_cons, List.filter_nil, hp, if_pos]
      exact List.getLast?_concat _
    · have hpn : p n = false := hall n (by omega)
      simp only [List.filter_cons, List.filter_nil, hpn]
      simp only [Bool.false_eq_true, if_false, List.append_nil]
      exact ih k (by omega) hp hall

theorem splitOnChar_ne_nil (c : Char) : ∀ (l : Str), splitOnChar c l ≠ [] := by
  intro l
  induction l with
  | nil => simp [splitOnChar]
  | cons x xs ih =>
    rw [splitOnChar]
    cases h : splitOnChar c xs with
    | nil => exact absurd h ih
    | cons a t => by_cases hx : x = c <;> simp [hx]

theorem splitOnChar_not_mem {c : Char} : ∀ (a : Str), c ∉ a → splitOnChar c a = [a] := by
  intro a
  induction a with
  | nil => intro _; rfl
  | cons x xs ih =>
    intro hnm
    have hx : ¬(x = c) := fun h => hnm (h ▸ List.mem_cons_self x xs)
    have hxs : c ∉ xs := fun h => hnm (List.mem_cons_of_mem x h)
    rw [splitOnChar, ih hxs]
    simp [hx]

theorem splitOnChar_append {c : Char} :
    ∀ (a b : Str), c ∉ a → splitOnChar c (a ++ c :: b) = a :: splitOnChar c b := by
  intro a
  induction a with
  | nil =>
    intro b _
    rw [List.nil_append, splitOnChar]
    cases hb : splitOnChar c b with
    | nil => exact absurd hb (splitOnChar_ne_nil c b)
    | cons h t => simp
  | cons x xs ih =>
    intro b hnm
    have hx : ¬(x = c) := fun h => hnm (h ▸ List.mem_cons_self x xs)
    have hxs : c ∉ xs := fun h => hnm (List.mem_cons_of_mem x h)
    rw [List.cons_append, splitOnChar, ih b hxs]
    simp [hx]

theorem lastIndexOfSub_decomp (root pat tail : Str)
    (hpre : pat.isPrefixOf ((root ++ pat ++ tail).drop root.length) = true)
    (hlast : ∀ j, root.length < j →
      pat.isPrefixOf ((root ++ pat ++ tail).drop j) = false) :
    lastIndexOfSub (root ++ pat ++ tail) pat = some root.length := by
  unfold lastIndexOfSub
  apply getLast?_filter_range
  · simp [List.length_append]; omega
  · exact hpre
  · exact hlast

/-- extractPackageName on an identifier lying under a scoped package
directory node_modules/@scope/name/...: the package key is
"@scope_name", provided no later occurrence of "node_modules/" shadows
this one. -/
theorem extractPackageName_scoped (root scope name rest : Str)
    (hscope : '/' ∉ scope) (hname : '/' ∉ name)
    (hlast : ∀ j, root.length < j →
      j ≤ (root ++ ("node_modules/").data
            ++ ('@' :: (scope ++ '/' :: (name ++ '/' :: rest)))).length →
      ("node_modules/").data.isPrefixOf
        ((root ++ ("node_modules/").data
            ++ ('@' :: (scope ++ '/' :: (name ++ '/' :: rest)))).drop j) = false) :
    extractPackageName (root ++ ("node_modules/").data
        ++ ('@' :: (scope ++ '/' :: (name ++ '/' :: rest))))
      = some ('@' :: (scope ++ '_' :: name)) := by
  have hpre : ("node_modules/").data.isPrefixOf
      ((root ++ ("node_modules/").data
        ++ ('@' :: (scope ++ '/' :: (name ++ '/' :: rest)))).drop root.length) = true := by
    rw [List.append_assoc, List.drop_left]
    exact List.isPrefixOf_iff_prefix.mpr (List.prefix_append _ _)
  have hall : ∀ j, root.length < j →
      ("node_modules/").data.isPrefixOf
        ((root ++ ("node_modules/").data
          ++ ('@' :: (scope ++ '/' :: (name ++ '/' :: rest)))).drop j) = false := by
    intro j hj
    by_cases hle : j ≤ (root ++ ("node_modules/").data
        ++ ('@' :: (scope ++ '/' :: (name ++ '/' :: rest)))).length
    · exact hlast j hj hle
    · rw [List.drop_eq_nil_of_le (by omega)]
      rfl
  have hidx := lastIndexOfSub_decomp root (("node_modules/").data)
    ('@' :: (scope ++ '/' :: (name ++ '/' :: rest))) hpre hall
  rw [extractPackageName, hidx]
  have hdrop : (root ++ ("node_modules/").data
      ++ ('@' :: (scope ++ '/' :: (name ++ '/' :: rest)))).drop
        (root.length + (("node_modules/").data).length)
      = '@' :: (scope ++ '/' :: (name ++ '/' :: rest)) := by
    rw [List.drop_left']
    rw [List.length_append]
  simp only [hdrop]
  have hs1 : splitOnChar '/' ('@' :: (scope ++ '/' :: (name ++ '/' :: rest)))
      = ('@' :: scope) :: name :: splitOnChar '/' rest := by
    have h1 : '/' ∉ '@' :: scope := by
      intro hm
      rcases List.mem_cons.mp hm with h | h
      · exact absurd h (by decide)
      · exact hscope h
    have := splitOnChar_append ('@' :: scope) (name ++ '/' :: rest) h1
    rw [List.cons_append] at this
    rw [this, splitOnChar_append name rest hname]
  rw [hs1]
  simp only [List.headD_cons, List.length_cons]
  rw [if_pos (by simp [List.isPrefixOf])]
  rw [if_pos (by omega)]
  simp [List.cons_append]

/-- C8: the URL rewrite's classification rules, in order.
(1)/(2): identifiers already in optimized URL form ("/@id/", "/@fs/")
or under the dependency-optimization cache ("/node_modules/.vite/deps/")
pass through unchanged.
(3): an identifier under node_modules/@scope/name/... (with no later
"node_modules/" occurrence, not in the cache, and not matching the
passthrough forms) rewrites to /node_modules/.vite/deps/@scope_name.js.
(4): identifiers not under a third-party-package directory get the
absolute-filesystem-reference form path.join("/@fs/", id). -/
theorem claim_C8_url_rewrite (root scope name rest : Str) (id2 id3 : Str)
    (hscope : '/' ∉ scope) (hname : '/' ∉ name)
    (hlast : ∀ j, root.length < j →
      j ≤ (root ++ ("node_modules/").data
            ++ ('@' :: (scope ++ '/' :: (name ++ '/' :: rest)))).length →
      ("node_modules/").data.isPrefixOf
        ((root ++ ("node_modules/").data
            ++ ('@' :: (scope ++ '/' :: (name ++ '/' :: rest)))).drop j) = false)
    (hp1 : ("/@id/").data.isPrefixOf (root ++ ("node_modules/").data
        ++ ('@' :: (scope ++ '/' :: (name ++ '/' :: rest)))) = false)
    (hp2 : ("/@fs/").data.isPrefixOf (root ++ ("node_modules/").data
        ++ ('@' :: (scope ++ '/' :: (name ++ '/' :: rest)))) = false)
    (hp3 : ("/node_modules/.vite/deps/").data.isPrefixOf (root ++ ("node_modules/").data
        ++ ('@' :: (scope ++ '/' :: (name ++ '/' :: rest)))) = false)
    (hnc : containsSub (root ++ ("node_modules/").data
        ++ ('@' :: (scope ++ '/' :: (name ++ '/' :: rest)))) ((".vite/deps").data) = false)
    (hq1 : ("/@id/").data.isPrefixOf id3 = false)
    (hq2 : ("/@fs/").data.isPrefixOf id3 = false)
    (hq3 : containsSub id3 (("node_modules").data) = false)
    (hr : ("/@id/").data.isPrefixOf id2 = true ∨ ("/@fs/").data.isPrefixOf id2 = true
        ∨ ("/node_modules/.vite/deps/").data.isPrefixOf id2 = true) :
    getOptimizedUrl id2 = id2
    ∧ getOptimizedUrl (root ++ ("node_modules/").data
        ++ ('@' :: (scope ++ '/' :: (name ++ '/' :: rest))))
      = ("/node_modules/.vite/deps/@").data ++ scope ++ '_' :: name ++ (".js").data
    ∧ getOptimizedUrl id3 = pathJoin (("/@fs/").data) id3 := by
  refine ⟨?_, ?_, ?_⟩
  · rcases hr with h | h | h <;>
      · rw [getOptimizedUrl, if_pos (by rw [h] <;> simp)]
  · have hcontains : containsSub (root ++ ("node_modules/").data
        ++ ('@' :: (scope ++ '/' :: (name ++ '/' :: rest)))) (("node_modules").data) = true := by
      have hre : root ++ ("node_modules/").data
          ++ ('@' :: (scope ++ '/' :: (name ++ '/' :: rest)))
          = root ++ ("node_modules").data
            ++ ('/' :: '@' :: (scope ++ '/' :: (name ++ '/' :: rest))) := by
        simp only [List.append_assoc]
        rfl
      rw [hre]
      exact containsSub_of_decomp _ _ _
    rw [getOptimizedUrl, if_neg (by rw [hp1, hp2, hp3]; simp),
        if_pos (by rw [hcontains, hnc]; rfl),
        extractPackageName_scoped root scope name rest hscope hname hlast]
    rw [show ("/node_modules/.vite/deps/@").data
        = ("/node_modules/.vite/deps/").data ++ ['@'] from rfl]
    simp
  · have hq3' : ("/node_modules/.vite/deps/").data.isPrefixOf id3 = false := by
      cases h : ("/node_modules/.vite/deps/").data.isPrefixOf id3 with
      | false => rfl
      | true =>
        rcases List.isPrefixOf_iff_prefix.mp h with ⟨t, ht⟩
        have hc : containsSub id3 (("node_modules").data) = true := by
          rw [← ht,
              show ("/node_modules/.vite/deps/").data ++ t
                = ['/'] ++ ("node_modules").data ++ (("/.vite/deps/").data ++ t) from by
                simp only [List.append_assoc]; rfl]
          exact containsSub_of_decomp _ _ _
        rw [hc] at hq3
        exact Bool.noConfusion hq3
    rw [getOptimizedUrl, if_neg (by rw [hq1, hq2, hq3']; simp),
        if_neg (by rw [hq3]; simp)]

theorem claim_C8_witness :
    ('/' ∉ ("vue").data) ∧ ('/' ∉ ("shared").data)
    ∧ (∀ j, (("/project/").data).length < j →
        j ≤ (("/project/").data ++ ("node_modules/").data
              ++ ('@' :: ((("vue").data) ++ '/' :: ((("shared").data) ++ '/' :: (("index.js").data))))).length →
        ("node_modules/").data.isPrefixOf
          ((("/project/").data ++ ("node_modules/").data
              ++ ('@' :: ((("vue").data) ++ '/' :: ((("shared").data) ++ '/' :: (("index.js").data))))).drop j) = false)
    ∧ (getOptimizedUrl (("/@id/virtual:my-plugin").data) = ("/@id/virtual:my-plugin").data
      ∧ getOptimizedUrl (("/project/").data ++ ("node_modules/").data
          ++ ('@' :: ((("vue").data) ++ '/' :: ((("shared").data) ++ '/' :: (("index.js").data)))))
        = ("/node_modules/.vite/deps/@").data ++ ("vue").data ++ '_' :: ("shared").data ++ (".js").data
      ∧ getOptimizedUrl (("/src/main.ts").data) = pathJoin (("/@fs/").data) (("/src/main.ts").data)) := by
  have hlastw : ∀ j, (("/project/").data).length < j →
      j ≤ (("/project/").data ++ ("node_modules/").data
            ++ ('@' :: ((("vue").data) ++ '/' :: ((("shared").data) ++ '/' :: (("index.js").data))))).length →
      ("node_modules/").data.isPrefixOf
        ((("/project/").data ++ ("node_modules/").data
            ++ ('@' :: ((("vue").data) ++ '/' :: ((("shared").data) ++ '/' :: (("index.js").data))))).drop j) = false := by
    intro j h1 h2
    have hlen9 : (("/project/").data).length = 9 := by decide
    have hlen42 : (("/project/").data ++ ("node_modules/").data
        ++ ('@' :: ((("vue").data) ++ '/' :: ((("shared").data) ++ '/' :: (("index.js").data))))).length
        = 42 := by decide
    rw [hlen9] at h1
    rw [hlen42] at h2
    have hb : ∀ k, k < 43 → (9 < k →
        ("node_modules/").data.isPrefixOf
          ((("/project/").data ++ ("node_modules/").data
            ++ ('@' :: ((("vue").data) ++ '/' :: ((("shared").data) ++ '/' :: (("index.js").data))))).drop k) = false) := by
      decide
    exact hb j (by omega) h1
  refine ⟨by decide, by decide, hlastw, ?_⟩
  exact claim_C8_url_rewrite (("/project/").data) (("vue").data) (("shared").data)
    (("index.js").data) (("/@id/virtual:my-plugin").data) (("/src/main.ts").data)
    (by decide) (by decide) hlastw (by decide) (by decide) (by decide) (by decide)
    (by decide) (by decide) (by decide) (Or.inl (by decide))

/-! ### Split lemmas for template generation (C10) -/

theorem head?_filter_range (p : Nat → Bool) :
    ∀ (n k : Nat), k < n → p k = true → (∀ j, j < k → p j = false) →
      ((List.range n).filter p).head? = some k := by
  intro n
  induction n with
  | zero => intro k hk; omega
  | succ n ih =>
    intro k hk hp hall
    rw [List.range_succ, List.filter_append]
    by_cases hkn : k = n
    · subst hkn
      have hnil : (List.range k).filter p = [] := by
        apply List.filter_eq_nil.mpr
        intro j hj
        simp [hall j (List.mem_range.mp hj)]
      simp [hnil, hp]
    · have hk' : k < n := by omega
      have := ih k hk' hp hall
      cases hfil : (List.range n).filter p with
      | nil => rw [hfil] at this; exact Option.noConfusion this
      | cons x xs =>
        rw [hfil] at this
        simp at this
        simp [this]

theorem firstIndexOfSub_mem {l pat : Str} {i : Nat}
    (h : firstIndexOfSub l pat = some i) :
    pat.isPrefixOf (l.drop i) = true ∧ i ≤ l.length := by
  unfold firstIndexOfSub at h
  have hmem : i ∈ (List.range (l.length + 1)).filter
      (fun i => pat.isPrefixOf (l.drop i)) := by
    cases hl : (List.range (l.length + 1)).filter
        (fun i => pat.isPrefixOf (l.drop i)) with
    | nil => rw [hl] at h; exact Option.noConfusion h
    | cons a t =>
      rw [hl] at h
      simp at h
      subst h
      exact List.mem_cons_self a t
  rcases List.mem_filter.mp hmem with ⟨hr, hp⟩
  refine ⟨hp, ?_⟩
  have := List.mem_range.mp hr
  omega

theorem splitOnSubFuel_congr {pat : Str} (hpat : pat ≠ []) :
    ∀ (fuel1 : Nat), ∀ (fuel2 : Nat) (l : Str), l.length < fuel1 → l.length < fuel2 →
      splitOnSubFuel pat fuel1 l = splitOnSubFuel pat fuel2 l := by
  intro fuel1
  induction fuel1 with
  | zero => intro fuel2 l h1; omega
  | succ fuel1 ih =>
    intro fuel2 l h1 h2
    cases fuel2 with
    | zero => omega
    | succ fuel2 =>
      rw [splitOnSubFuel, splitOnSubFuel]
      cases hf : firstIndexOfSub l pat with
      | none => rfl
      | some i =>
        rcases firstIndexOfSub_mem hf with ⟨hp, hle⟩
        have hplen : pat.length ≤ l.length - i :=
          le_trans (List.isPrefixOf_iff_prefix.mp hp).length_le (le_of_eq (List.length_drop i l))
        have hppos : 0 < pat.length := List.length_pos.mpr hpat
        have hlen' : (l.drop (i + pat.length)).length < l.length := by
          rw [List.length_drop]
          omega
        simp only [ih fuel2 (l.drop (i + pat.length)) (by omega) (by omega)]

theorem firstIndexOfSub_of_decomp (a pat b : Str)
    (hno : ∀ i, i < a.length → pat.isPrefixOf ((a ++ pat ++ b).drop i) = false) :
    firstIndexOfSub (a ++ pat ++ b) pat = some a.length := by
  unfold firstIndexOfSub
  apply head?_filter_range
  · simp [List.length_append]
    omega
  · rw [List.append_assoc, List.drop_left]
    exact List.isPrefixOf_iff_prefix.mpr (List.prefix_append _ _)
  · exact hno

theorem firstIndexOfSub_none_of_not_contains (l pat : Str)
    (h : containsSub l pat = false) : firstIndexOfSub l pat = none := by
  unfold containsSub at h
  unfold firstIndexOfSub
  have : (List.range (l.length + 1)).filter (fun i => pat.isPrefixOf (l.drop i)) = [] := by
    apply List.filter_eq_nil.mpr
    intro i hi
    intro hcon
    rw [List.any_eq_false] at h
    exact absurd hcon (by simpa using h i hi)
  rw [this]
  rfl

theorem splitOnSub_not_contains (l pat : Str) (hpat : pat ≠ [])
    (h : containsSub l pat = false) : splitOnSub l pat = [l] := by
  rw [splitOnSub, if_neg hpat, splitOnSubFuel,
      firstIndexOfSub_none_of_not_contains l pat h]

theorem splitOnSub_decomp (a pat b : Str) (hpat : pat ≠ [])
    (hno : ∀ i, i < a.length → pat.isPrefixOf ((a ++ pat ++ b).drop i) = false) :
    splitOnSub (a ++ pat ++ b) pat = a :: splitOnSub b pat := by
  have htake : (a ++ pat ++ b).take a.length = a := by
    rw [List.append_assoc, List.take_left]
  have hdrop : (a ++ pat ++ b).drop (a.length + pat.length) = b := by
    rw [List.drop_left']
    rw [List.length_append]
  rw [splitOnSub, if_neg hpat, splitOnSubFuel, firstIndexOfSub_of_decomp a pat b hno]
  simp only [htake, hdrop]
  rw [splitOnSub, if_neg hpat]
  congr 1
  have hppos : 0 < pat.length := List.length_pos.mpr hpat
  apply splitOnSubFuel_congr hpat
  · simp [List.length_append]
    omega
  · omega

/-- A pattern occurring nowhere in a string occurs nowhere in any of
its contiguous substrings. -/
theorem containsSub_infix {b r : Str} (hinf : b <:+: r) (pat : Str)
    (h : containsSub r pat = false) : containsSub b pat = false := by
  cases hcb : containsSub b pat with
  | false => rfl
  | true =>
    exfalso
    rcases (containsSub_iff b pat).mp hcb with ⟨i, hp⟩
    rcases hinf with ⟨x, y, hxy⟩
    by_cases hib : i ≤ b.length
    · have hdrop : r.drop (x.length + i) = b.drop i ++ y := by
        rw [← hxy, List.append_assoc, List.drop_append, List.drop_append_of_le_length hib]
      have hpre : pat <+: r.drop (x.length + i) := by
        rw [hdrop]
        exact (List.isPrefixOf_iff_prefix.mp hp).trans (List.prefix_append _ _)
      have : containsSub r pat = true :=
        (containsSub_iff r pat).mpr ⟨x.length + i, List.isPrefixOf_iff_prefix.mpr hpre⟩
      rw [this] at h
      exact Bool.noConfusion h
    · rw [List.drop_eq_nil_of_le (by omega)] at hp
      have hpat : pat = [] := by
        cases pat with
        | nil => rfl
        | cons c cs => exact Bool.noConfusion hp
      have : containsSub r pat = true := by
        apply (containsSub_iff r pat).mpr
        exact ⟨0, by rw [hpat]; simp [List.isPrefixOf]⟩
      rw [this] at h
      exact Bool.noConfusion h

/-- C10 counterexample to the universal claim: in the production state
with no cached template (for example a hook running during the initial
reload in preview mode, before postInitExpress caches the built
index.html), the resolved shell template is the empty string, the
split's [1] access is undefined, and generateHeadContent throws instead
of returning a head span. -/
theorem claim_C10_counterexample :
    generateHeadContentAt false [] none = none ∧ generateHeadContent [] = none := by
  refine ⟨?_, ?_⟩ <;> decide

/-- C10 (amended): whenever the shell templated with empty head and
body decomposes as a ++ "<head>" ++ b ++ "</head>" ++ c with the shown
occurrences first, generateHeadContent returns exactly the span b taken
from the internal templating routine (so nothing absent from that
un-augmented output — in particular no baseline charset/viewport meta
tag — can appear in it), and the generated dev shell itself contains no
charset or viewport meta tags. -/
theorem claim_C10_head_content (t r a b c : Str)
    (hint : internalGenerateHTMLTemplate t [] [] = some r)
    (hdec : r = a ++ ("<head>").data ++ (b ++ (("</head>").data ++ c)))
    (hnoA : ∀ i, i < a.length → ("<head>").data.isPrefixOf (r.drop i) = false)
    (hnoHead2 : containsSub (b ++ (("</head>").data ++ c)) (("<head>").data) = false)
    (hnoB : ∀ i, i < b.length →
      ("</head>").data.isPrefixOf ((b ++ (("</head>").data ++ c)).drop i) = false) :
    generateHeadContent t = some b
    ∧ (∀ pat, containsSub r pat = false → containsSub b pat = false)
    ∧ containsSub devIndexHtml (("charset").data) = false
    ∧ containsSub devIndexHtml (("viewport").data) = false := by
  subst hdec
  refine ⟨?_, ?_, by decide, by decide⟩
  · have hsplit1 : splitOnSub (a ++ ("<head>").data ++ (b ++ (("</head>").data ++ c)))
        (("<head>").data)
        = a :: splitOnSub (b ++ (("</head>").data ++ c)) (("<head>").data) :=
      splitOnSub_decomp a (("<head>").data) (b ++ (("</head>").data ++ c))
        (by decide) hnoA
    have hsplit2 : splitOnSub (b ++ (("</head>").data ++ c)) (("<head>").data)
        = [b ++ (("</head>").data ++ c)] :=
      splitOnSub_not_contains _ _ (by decide) hnoHead2
    have hsplit3 : splitOnSub (b ++ (("</head>").data ++ c)) (("</head>").data)
        = b :: splitOnSub c (("</head>").data) := by
      have h3 := splitOnSub_decomp b (("</head>").data) c (by decide)
        (by rw [← List.append_assoc] at hnoB; exact hnoB)
      rw [List.append_assoc] at h3
      exact h3
    simp only [generateHeadContent, hint, hsplit1, hsplit2, hsplit3,
      List.get?_cons_succ, List.get?_cons_zero, List.getElem?_cons_succ,
      List.getElem?_cons_zero, List.headD_cons]
  · intro pat hp
    apply containsSub_infix _ pat hp
    exact ⟨a ++ ("<head>").data, ("</head>").data ++ c, by simp⟩

theorem claim_C10_witness :
    (internalGenerateHTMLTemplate devIndexHtml [] []
      = some ((("<!DOCTYPE html>\n<html lang=\"en\">\n  ").data
          ++ ("<head>").data
          ++ ((("\n    \n    <script type=\"module\" src=\"/client.ts\"></script>\n  ").data)
            ++ (("</head>").data
              ++ ("\n  <body>\n    <div id=\"app\"></div>\n  </body>\n</html>").data)))))
    ∧ (generateHeadContent devIndexHtml
        = some (("\n    \n    <script type=\"module\" src=\"/client.ts\"></script>\n  ").data)) := by
  have h1 : internalGenerateHTMLTemplate devIndexHtml [] []
      = some ((("<!DOCTYPE html>\n<html lang=\"en\">\n  ").data
          ++ ("<head>").data
          ++ ((("\n    \n    <script type=\"module\" src=\"/client.ts\"></script>\n  ").data)
            ++ (("</head>").data
              ++ ("\n  <body>\n    <div id=\"app\"></div>\n  </body>\n</html>").data)))) := by
    decide
  refine ⟨h1, ?_⟩
  have h := claim_C10_head_content devIndexHtml _
    (("<!DOCTYPE html>\n<html lang=\"en\">\n  ").data)
    (("\n    \n    <script type=\"module\" src=\"/client.ts\"></script>\n  ").data)
    (("\n  <body>\n    <div id=\"app\"></div>\n  </body>\n</html>").data)
    h1 rfl (by decide) (by decide) (by decide)
  exact h.1

/-! ### C7: per-entry isolation of traversal failures -/

theorem getDepsRawDeps_append (manifestJson : List (Str × List Str))
    (viteDevServer : Option ModuleGraph) (isProduction : Bool) :
    ∀ (xs ys : List Str),
      getDepsRawDeps manifestJson viteDevServer isProduction (xs ++ ys)
        = getDepsRawDeps manifestJson viteDevServer isProduction xs
          ++ getDepsRawDeps manifestJson viteDevServer isProduction ys := by
  intro xs ys
  induction xs with
  | nil => simp [getDepsRawDeps]
  | cons x l ih =>
    simp only [List.cons_append, getDepsRawDeps, List.foldr_cons] at *
    rw [ih, List.append_assoc]

theorem getDepsRawWarns_append (manifestJson : List (Str × List Str))
    (viteDevServer : Option ModuleGraph) (isProduction : Bool) :
    ∀ (xs ys : List Str),
      getDepsRawWarns manifestJson viteDevServer isProduction (xs ++ ys)
        = getDepsRawWarns manifestJson viteDevServer isProduction xs
          ++ getDepsRawWarns manifestJson viteDevServer isProduction ys := by
  intro xs ys
  induction xs with
  | nil => simp [getDepsRawWarns]
  | cons x l ih =>
    simp only [List.cons_append, getDepsRawWarns, List.foldr_cons] at *
    rw [ih, List.append_assoc]

/-- C7: when the graph walk for one entry throws (here: the graph
backend throws for that entry), the exception is confined to that
entry: the returned asset list is the one the call without that entry
produces, and the console.warn log is the surrounding entries' log with
exactly one warning for the failing (normalized) entry inserted — the
call itself returns normally. -/
theorem claim_C7_per_entry_isolation (manifestJson : List (Str × List Str))
    (g : ModuleGraph) (ms1 ms2 : List Str) (m errMsg : Str)
    (herr : collectDepsDev g (normalizeModule m) = some (.error errMsg)) :
    (getDeps manifestJson (some g) false (ms1 ++ m :: ms2)).deps
      = (getDeps manifestJson (some g) false (ms1 ++ ms2)).deps
    ∧ (getDeps manifestJson (some g) false (ms1 ++ m :: ms2)).warns
      = (getDeps manifestJson (some g) false ms1).warns
        ++ normalizeModule m :: (getDeps manifestJson (some g) false ms2).warns := by
  have hstep : getDepsStep manifestJson (some g) false (normalizeModule m)
      = ([], [normalizeModule m]) := by
    rw [getDepsStep]
    simp [herr]
  have hd1 : getDepsRawDeps manifestJson (some g) false (normalizeModule m
      :: ms2.map normalizeModule) = getDepsRawDeps manifestJson (some g) false
        (ms2.map normalizeModule) := by
    rw [getDepsRawDeps, List.foldr_cons, hstep]
    rfl
  have hw1 : getDepsRawWarns manifestJson (some g) false (normalizeModule m
      :: ms2.map normalizeModule) = normalizeModule m
        :: getDepsRawWarns manifestJson (some g) false (ms2.map normalizeModule) := by
    rw [getDepsRawWarns, List.foldr_cons, hstep]
    rfl
  constructor
  · simp only [getDeps_eq, List.map_append, List.map_cons]
    rw [getDepsRawDeps_append, getDepsRawDeps_append, hd1]
  · simp only [getDeps_eq, List.map_append, List.map_cons]
    rw [getDepsRawWarns_append, hw1]

theorem claim_C7_witness :
    collectDepsDev [(("bad.ts").data, Except.error (("graph boom").data))]
        (normalizeModule (("bad.ts").data)) = some (.error (("graph boom").data))
    ∧ ((getDeps [] (some [(("bad.ts").data, Except.error (("graph boom").data))]) false
          ([("ok.ts").data] ++ ("bad.ts").data :: [("other.ts").data])).deps
        = (getDeps [] (some [(("bad.ts").data, Except.error (("graph boom").data))]) false
            ([("ok.ts").data] ++ [("other.ts").data])).deps
      ∧ (getDeps [] (some [(("bad.ts").data, Except.error (("graph boom").data))]) false
          ([("ok.ts").data] ++ ("bad.ts").data :: [("other.ts").data])).warns
        = (getDeps [] (some [(("bad.ts").data, Except.error (("graph boom").data))]) false
            [("ok.ts").data]).warns
          ++ normalizeModule (("bad.ts").data)
            :: (getDeps [] (some [(("bad.ts").data, Except.error (("graph boom").data))]) false
              [("other.ts").data]).warns) :=
  ⟨rfl,
   claim_C7_per_entry_isolation [] [(("bad.ts").data, Except.error (("graph boom").data))]
     [("ok.ts").data] [("other.ts").data] (("bad.ts").data) (("graph boom").data) rfl⟩

/-! ### C6: basic graph lemmas -/

theorem assocLookup_mem {β : Type} :
    ∀ (l : List (Str × β)) (k : Str) (v : β), assocLookup l k = some v → (k, v) ∈ l := by
  intro l
  induction l with
  | nil => intro k v h; exact Option.noConfusion h
  | cons kv rest ih =>
    intro k v h
    rcases kv with ⟨k', v'⟩
    rw [assocLookup] at h
    by_cases hk : k' = k
    · rw [if_pos hk] at h
      subst hk
      rw [Option.some.inj h]
      exact List.mem_cons_self _ _
    · rw [if_neg hk] at h
      exact List.mem_cons_of_mem _ (ih k v h)

theorem findNode_eq_some_iff (g : ModuleGraph) (s : Str) (n : ModuleNode) :
    findNode g s = some n ↔ assocLookup g s = some (.ok n) := by
  rw [findNode, lookupG]
  cases h : assocLookup g s with
  | none => simp
  | some entry =>
    cases entry with
    | ok n' => simp
    | error e => simp

theorem wellFormed_id {g : ModuleGraph} (hwf : wellFormedGraph g = true) :
    ∀ (s : Str) (n : ModuleNode), findNode g s = some n → n.id = some s := by
  intro s n h
  have hmem : (s, Except.ok n) ∈ g := assocLookup_mem g s _ ((findNode_eq_some_iff g s n).mp h)
  have := (List.all_eq_true.mp hwf) _ hmem
  simpa using this

theorem throwFree_lookupG {g : ModuleGraph} (htf : graphThrowFree g = true) :
    ∀ (s : Str), lookupG g s = .ok (findNode g s) := by
  intro s
  rw [findNode, lookupG]
  cases h : assocLookup g s with
  | none => rfl
  | some entry =>
    cases entry with
    | ok n => rfl
    | error e =>
      have hmem : (s, Except.error e) ∈ g := assocLookup_mem g s _ h
      have := (List.all_eq_true.mp htf) _ hmem
      simp at this

theorem mem_idsOf {g : ModuleGraph} {s mid : Str} {n : ModuleNode}
    (h : findNode g s = some n) (hid : n.id = some mid) : mid ∈ idsOf g := by
  have hmem : (s, Except.ok n) ∈ g := assocLookup_mem g s _ ((findNode_eq_some_iff g s n).mp h)
  rw [idsOf]
  apply List.mem_filterMap.mpr
  exact ⟨(s, Except.ok n), hmem, by simpa using hid⟩

theorem length_filter_mono {α : Type} {p q : α → Bool} (h : ∀ x, p x = true → q x = true) :
    ∀ (l : List α), (l.filter p).length ≤ (l.filter q).length := by
  intro l
  induction l with
  | nil => simp
  | cons x xs ih =>
    rw [List.filter_cons, List.filter_cons]
    by_cases hp : p x = true
    · rw [hp, h x hp]
      simpa using ih
    · have : p x = false := by
        cases hpx : p x
        · rfl
        · exact absurd hpx hp
      rw [this]
      cases hq : q x <;> simp <;> omega

theorem unseenCount_le_of_prefix {g : ModuleGraph} {seen seen' : List Str}
    (h : seen <+: seen') : unseenCount g seen' ≤ unseenCount g seen := by
  apply length_filter_mono
  intro x hx
  simp only [decide_eq_true_eq] at *
  exact fun hmem => hx (h.subset hmem)

theorem length_filter_lt_of_mem :
    ∀ (l : List Str) (seen : List Str) (mid : Str), mid ∈ l → mid ∉ seen →
      (l.filter (fun x => decide (x ∉ seen ++ [mid]))).length
        < (l.filter (fun x => decide (x ∉ seen))).length := by
  intro l
  induction l with
  | nil => intro seen mid hmem; cases hmem
  | cons x xs ih =>
    intro seen mid hmem hnot
    rw [List.filter_cons, List.filter_cons]
    have hmono : (xs.filter (fun y => decide (y ∉ seen ++ [mid]))).length
        ≤ (xs.filter (fun y => decide (y ∉ seen))).length := by
      apply length_filter_mono
      intro y hy
      simp only [decide_eq_true_eq, List.mem_append] at *
      intro hmem2
      exact hy (Or.inl hmem2)
    by_cases hx : x = mid
    · subst hx
      have hl : (decide (x ∉ seen ++ [x])) = false := by simp
      have hr : (decide (x ∉ seen)) = true := by simpa using hnot
      rw [hl, hr]
      simpa using Nat.lt_succ_of_le hmono
    · have heq : (decide (x ∉ seen ++ [mid])) = (decide (x ∉ seen)) := by
        by_cases hxs : x ∈ seen
        · simp [hxs]
        · simp [hxs, List.mem_append, hx]
      have hmem' : mid ∈ xs := by
        rcases List.mem_cons.mp hmem with h | h
        · exact absurd h.symm hx
        · exact h
      rw [heq]
      cases h2 : (decide (x ∉ seen)) with
      | false => simpa using ih seen mid hmem' hnot
      | true => simpa using Nat.succ_lt_succ (ih seen mid hmem' hnot)

theorem unseenCount_lt_insert {g : ModuleGraph} {seen : List Str} {mid : Str}
    (hmem : mid ∈ idsOf g) (hnot : mid ∉ seen) :
    unseenCount g (seen ++ [mid]) < unseenCount g seen :=
  length_filter_lt_of_mem (idsOf g) seen mid hmem hnot

/-- The root of a non-trivial reachability fact resolves to a node. -/
theorem ReachId.root_isSome {g : ModuleGraph} {root x : Str}
    (h : ReachId g root x) : (findNode g root).isSome = true := by
  induction h with
  | refl h => exact h
  | step _ _ ih => exact ih

/-- Reachability is transitive along intermediate roots. -/
theorem ReachId.trans {g : ModuleGraph} {root s x : Str}
    (h1 : ReachId g root s) (h2 : ReachId g s x) : ReachId g root x := by
  induction h2 with
  | refl _ => exact h1
  | step _ hedge ih => exact ReachId.step ih hedge

/-- Invariant package of the imports-list walk, for any step function
whose successful results satisfy the node package: the visited set
grows by appending; nodup is preserved; every added id is reachable
from one of the processed imports; every import that resolves to a node
ends up in the set; every added id has all its successors in the final
set. -/
theorem collectMany_pkg {g : ModuleGraph}
    {step : Str → List Str → Option (Except Str (List Str))}
    (hstep : ∀ (e : Str) (seen s' : List Str), step e seen = some (.ok s') →
      (seen <+: s')
      ∧ (seen.Nodup → s'.Nodup)
      ∧ (∀ x, x ∈ s' → x ∈ seen ∨ ReachId g e x)
      ∧ ((findNode g e).isSome = true → e ∈ s')
      ∧ (∀ x, x ∈ s' → x ∈ seen ∨ (∀ t, EdgeId g x t → t ∈ s'))) :
    ∀ (deps : List (Option Str)) (seen s' : List Str),
      collectMany step deps seen = some (.ok s') →
      (seen <+: s')
      ∧ (seen.Nodup → s'.Nodup)
      ∧ (∀ x, x ∈ s' → x ∈ seen ∨ ∃ d, (some d) ∈ deps ∧ ReachId g d x)
      ∧ (∀ t, (some t) ∈ deps → (findNode g t).isSome = true → t ∈ s')
      ∧ (∀ x, x ∈ s' → x ∈ seen ∨ (∀ t, EdgeId g x t → t ∈ s')) := by
  intro deps
  induction deps with
  | nil =>
    intro seen s' h
    rw [collectMany] at h
    simp only [Option.some.injEq, Except.ok.injEq] at h
    subst h
    refine ⟨List.prefix_refl seen, fun hn => hn, fun x hx => Or.inl hx, ?_, fun x hx => Or.inl hx⟩
    intro t ht
    exact absurd ht (List.not_mem_nil _)
  | cons dep rest ih =>
    cases dep with
    | none =>
      intro seen s' h
      rw [collectMany] at h
      rcases ih seen s' h with ⟨hpre, hnd, hreach, hdeps, hclose⟩
      refine ⟨hpre, hnd, ?_, ?_, hclose⟩
      · intro x hx
        rcases hreach x hx with hl | ⟨d, hd, hr⟩
        · exact Or.inl hl
        · exact Or.inr ⟨d, List.mem_cons_of_mem _ hd, hr⟩
      · intro t ht
        rcases List.mem_cons.mp ht with hh | hh
        · exact absurd hh (by simp)
        · exact hdeps t hh
    | some d =>
      intro seen s' h
      rw [collectMany] at h
      cases hs : step d seen with
      | none => rw [hs] at h; exact Option.noConfusion h
      | some r =>
        cases r with
        | error e =>
          rw [hs] at h
          simp at h
        | ok smid =>
          rw [hs] at h
          rcases hstep d seen smid hs with ⟨hpre1, hnd1, hreach1, hroot1, hclose1⟩
          rcases ih smid s' h with ⟨hpre2, hnd2, hreach2, hdeps2, hclose2⟩
          refine ⟨hpre1.trans hpre2, fun hn => hnd2 (hnd1 hn), ?_, ?_, ?_⟩
          · intro x hx
            rcases hreach2 x hx with hmid | ⟨d', hd', hr'⟩
            · rcases hreach1 x hmid with hl | hr
              · exact Or.inl hl
              · exact Or.inr ⟨d, List.mem_cons_self _ _, hr⟩
            · exact Or.inr ⟨d', List.mem_cons_of_mem _ hd', hr'⟩
          · intro t ht hsome
            rcases List.mem_cons.mp ht with hh | hh
            · have htd : t = d := by
                injection hh
              subst htd
              exact hpre2.subset (hroot1 hsome)
            · exact hdeps2 t hh hsome
          · intro x hx
            rcases hclose2 x hx with hmid | hcl
            · rcases hclose1 x hmid with hl | hcl1
              · exact Or.inl hl
              · refine Or.inr (fun t he => hpre2.subset (hcl1 t he))
            · exact Or.inr hcl

/-- Invariant package of the node walk, by induction on the fuel. -/
theorem collect_node_pkg {g : ModuleGraph} (hwf : wellFormedGraph g = true) :
    ∀ (fuel : Nat) (e : Str) (seen s' : List Str),
      collectFuel g fuel e seen = some (.ok s') →
      (seen <+: s')
      ∧ (seen.Nodup → s'.Nodup)
      ∧ (∀ x, x ∈ s' → x ∈ seen ∨ ReachId g e x)
      ∧ ((findNode g e).isSome = true → e ∈ s')
      ∧ (∀ x, x ∈ s' → x ∈ seen ∨ (∀ t, EdgeId g x t → t ∈ s')) := by
  intro fuel
  induction fuel with
  | zero =>
    intro e seen s' h
    exact Option.noConfusion h
  | succ fuel ih =>
    intro e seen s' h
    rw [collectFuel, collectStep] at h
    cases hlk : lookupG g e with
    | error e' =>
      simp only [hlk] at h
      exact absurd h (by simp)
    | ok mo =>
      cases mo with
      | none =>
        simp only [hlk, Option.some.injEq, Except.ok.injEq] at h
        subst h
        have hfind : findNode g e = none := by rw [findNode, hlk]
        refine ⟨List.prefix_refl seen, fun hn => hn, fun x hx => Or.inl hx, ?_,
          fun x hx => Or.inl hx⟩
        intro hsome
        rw [hfind] at hsome
        exact Bool.noConfusion hsome
      | some m =>
        have hfind : findNode g e = some m := by rw [findNode, hlk]
        have hide : m.id = some e := wellFormed_id hwf e m hfind
        simp only [hlk, hide] at h
        by_cases hin : e ∈ seen
        · rw [if_pos hin] at h
          simp only [Option.some.injEq, Except.ok.injEq] at h
          subst h
          refine ⟨List.prefix_refl seen, fun hn => hn, fun x hx => Or.inl hx,
            fun _ => hin, fun x hx => Or.inl hx⟩
        · rw [if_neg hin] at h
          rcases collectMany_pkg ih m.deps (seen ++ [e]) s' h with
            ⟨hpre, hnd, hreach, hdeps, hclose⟩
          have hpre0 : seen <+: seen ++ [e] := List.prefix_append seen [e]
          have hsome : (findNode g e).isSome = true := by rw [hfind]; rfl
          have hein : e ∈ s' := hpre.subset (by simp)
          refine ⟨hpre0.trans hpre, ?_, ?_, fun _ => hein, ?_⟩
          · intro hn
            apply hnd
            rw [List.nodup_append]
            exact ⟨hn, List.nodup_singleton e, by simpa using hin⟩
          · intro x hx
            rcases hreach x hx with hl | ⟨d, hd, hr⟩
            · rcases List.mem_append.mp hl with hl' | hl'
              · exact Or.inl hl'
              · have hxe : x = e := by simpa using hl'
                subst hxe
                exact Or.inr (ReachId.refl hsome)
            · have hedge : EdgeId g e d := ⟨m, hfind, hd, hr.root_isSome⟩
              exact Or.inr (ReachId.trans (ReachId.step (ReachId.refl hsome) hedge) hr)
          · intro x hx
            rcases hclose x hx with hl | hcl
            · rcases List.mem_append.mp hl with hl' | hl'
              · exact Or.inl hl'
              · have hxe : x = e := by simpa using hl'
                subst hxe
                refine Or.inr (fun t he => ?_)
                rcases he with ⟨n, hfind', hdep, hsome'⟩
                have hnm : n = m := by
                  rw [hfind] at hfind'
                  exact (Option.some.inj hfind').symm
                subst hnm
                exact hdeps t hdep hsome'
            · exact Or.inr hcl

/-- The walk never exhausts a budget larger than the number of not yet
visited graph ids: the termination argument for collectDepsDev. -/
theorem collect_fuel_adequate {g : ModuleGraph} (hwf : wellFormedGraph g = true) :
    ∀ (fuel : Nat),
      (∀ (e : Str) (seen : List Str), unseenCount g seen < fuel →
        collectFuel g fuel e seen ≠ none)
      ∧ (∀ (deps : List (Option Str)) (seen : List Str), unseenCount g seen < fuel →
        collectMany (collectFuel g fuel) deps seen ≠ none) := by
  intro fuel
  induction fuel with
  | zero =>
    constructor
    · intro e seen h; omega
    · intro deps seen h; omega
  | succ fuel ih =>
    have hnode : ∀ (e : Str) (seen : List Str), unseenCount g seen < fuel + 1 →
        collectFuel g (fuel + 1) e seen ≠ none := by
      intro e seen hcnt
      rw [collectFuel, collectStep]
      cases hlk : lookupG g e with
      | error e' => simp
      | ok mo =>
        cases mo with
        | none => simp
        | some m =>
          simp only
          cases hid : m.id with
          | none => simp
          | some mid =>
            simp only
            by_cases hin : mid ∈ seen
            · simp [hin]
            · rw [if_neg hin]
              have hfind : findNode g e = some m := by rw [findNode, hlk]
              have hmemids : mid ∈ idsOf g := mem_idsOf hfind hid
              have hlt : unseenCount g (seen ++ [mid]) < unseenCount g seen :=
                unseenCount_lt_insert hmemids hin
              exact ih.2 m.deps (seen ++ [mid]) (by omega)
    refine ⟨hnode, ?_⟩
    intro deps
    induction deps with
    | nil =>
      intro seen _ h
      rw [collectMany] at h
      exact Option.noConfusion h
    | cons dep rest ihd =>
      cases dep with
      | none =>
        intro seen hcnt
        rw [collectMany]
        exact ihd seen hcnt
      | some d =>
        intro seen hcnt
        rw [collectMany]
        cases hs : collectFuel g (fuel + 1) d seen with
        | none => exact absurd hs (hnode d seen hcnt)
        | some r =>
          cases r with
          | error e => simp
          | ok smid =>
            simp only
            have hpre := (collect_node_pkg hwf (fuel + 1) d seen smid hs).1
            have hle := unseenCount_le_of_prefix (g := g) hpre
            exact ihd smid (by omega)

/-- When no graph lookup throws, the walk never produces an error. -/
theorem collect_no_error {g : ModuleGraph} (htf : graphThrowFree g = true) :
    ∀ (fuel : Nat),
      (∀ (e : Str) (seen : List Str) (msg : Str),
        collectFuel g fuel e seen ≠ some (.error msg))
      ∧ (∀ (deps : List (Option Str)) (seen : List Str) (msg : Str),
        collectMany (collectFuel g fuel) deps seen ≠ some (.error msg)) := by
  intro fuel
  induction fuel with
  | zero =>
    constructor
    · intro e seen msg h; exact Option.noConfusion h
    · intro deps
      induction deps with
      | nil =>
        intro seen msg h
        rw [collectMany] at h
        simp at h
      | cons dep rest ihd =>
        cases dep with
        | none =>
          intro seen msg h
          rw [collectMany] at h
          exact ihd seen msg h
        | some d =>
          intro seen msg h
          rw [collectMany] at h
          simp [collectFuel] at h
  | succ fuel ih =>
    have hnode : ∀ (e : Str) (seen : List Str) (msg : Str),
        collectFuel g (fuel + 1) e seen ≠ some (.error msg) := by
      intro e seen msg h
      rw [collectFuel, collectStep, throwFree_lookupG htf e] at h
      cases hf : findNode g e with
      | none => simp [hf] at h
      | some m =>
        simp only [hf] at h
        cases hid : m.id with
        | none => simp [hid] at h
        | some mid =>
          simp only [hid] at h
          by_cases hin : mid ∈ seen
          · simp [hin] at h
          · rw [if_neg hin] at h
            exact absurd h (ih.2 m.deps (seen ++ [mid]) msg)
    refine ⟨hnode, ?_⟩
    intro deps
    induction deps with
    | nil =>
      intro seen msg h
      rw [collectMany] at h
      simp at h
    | cons dep rest ihd =>
      cases dep with
      | none =>
        intro seen msg h
        rw [collectMany] at h
        exact ihd seen msg h
      | some d =>
        intro seen msg h
        rw [collectMany] at h
        cases hs : collectFuel g (fuel + 1) d seen with
        | none => rw [hs] at h; exact Option.noConfusion h
        | some r =>
          cases r with
          | error e => exact absurd hs (hnode d seen e)
          | ok smid =>
            rw [hs] at h
            exact ihd smid msg h

/-- Completeness of the walk from an empty visited set: every id
reachable from the entry is collected. -/
theorem collect_complete {g : ModuleGraph} (hwf : wellFormedGraph g = true)
    {entry : Str} {L : List Str}
    (hok : collectFuel g (g.length + 1) entry [] = some (.ok L)) :
    ∀ x, ReachId g entry x → x ∈ L := by
  have hpkg := collect_node_pkg hwf (g.length + 1) entry [] L hok
  intro x hx
  induction hx with
  | refl h => exact hpkg.2.2.2.1 h
  | step hr hedge ih =>
    rcases hpkg.2.2.2.2 _ ih with hl | hcl
    · exact absurd hl (List.not_mem_nil _)
    · exact hcl _ hedge

/-- C6: on a finite module graph (possibly cyclic — the hypothesis even
requires a cycle reachable from the entry) whose nodes carry their own
key as id and whose lookups do not throw, the development traversal of
an entry terminates with an ok result; the collected list contains each
id at most once and contains exactly the ids reachable from the entry;
the resolver's result for that entry is the deduplicated list of their
rewritten URLs, contains every reachable node's rewritten URL, and has
no duplicates; and a node whose id is already in the visited set is not
re-entered (the traversal returns the set unchanged). -/
theorem claim_C6_dev_traversal_cycle (manifestJson : List (Str × List Str))
    (g : ModuleGraph) (entry : Str)
    (hwf : wellFormedGraph g = true) (htf : graphThrowFree g = true)
    (hnorm : normalizeModule entry = entry)
    (hcycle : ∃ c, ReachId g entry c ∧ Relation.TransGen (EdgeId g) c c) :
    ∃ L, collectDepsDev g entry = some (.ok L)
      ∧ L.Nodup
      ∧ (∀ x, x ∈ L ↔ ReachId g entry x)
      ∧ (getDeps manifestJson (some g) false [entry]).deps
          = insertionDedup (L.map getOptimizedUrl)
      ∧ (∀ x, ReachId g entry x →
          getOptimizedUrl x ∈ (getDeps manifestJson (some g) false [entry]).deps)
      ∧ (getDeps manifestJson (some g) false [entry]).deps.Nodup
      ∧ (∀ (seen : List Str) (m : ModuleNode), findNode g entry = some m →
          entry ∈ seen → collectFuel g (g.length + 1) entry seen = some (.ok seen)) := by
  have hbound : unseenCount g [] < g.length + 1 := by
    have h1 : unseenCount g [] ≤ (idsOf g).length := by
      unfold unseenCount
      exact List.length_filter_le _ _
    have h2 : (idsOf g).length ≤ g.length := List.length_filterMap_le _ _
    omega
  have hne := (collect_fuel_adequate hwf (g.length + 1)).1 entry [] hbound
  have hnerr := (collect_no_error htf (g.length + 1)).1 entry []
  obtain ⟨L, hok⟩ : ∃ L, collectFuel g (g.length + 1) entry [] = some (.ok L) := by
    cases hc : collectFuel g (g.length + 1) entry [] with
    | none => exact absurd hc hne
    | some r =>
      cases r with
      | error msg => exact absurd hc (hnerr msg)
      | ok L => exact ⟨L, rfl⟩
  have hpkg := collect_node_pkg hwf (g.length + 1) entry [] L hok
  have hmemiff : ∀ x, x ∈ L ↔ ReachId g entry x := by
    intro x
    constructor
    · intro hx
      rcases hpkg.2.2.1 x hx with hl | hr
      · exact absurd hl (List.not_mem_nil _)
      · exact hr
    · exact collect_complete hwf hok x
  have hdeps : (getDeps manifestJson (some g) false [entry]).deps
      = insertionDedup (L.map getOptimizedUrl) := by
    rw [getDeps_eq]
    simp only [List.map_cons, List.map_nil, hnorm]
    rw [getDepsRawDeps]
    simp only [List.foldr_cons, List.foldr_nil]
    rw [getDepsStep]
    have hok' : collectDepsDev g entry = some (.ok L) := hok
    simp only [Bool.false_eq_true, if_false, hok']
    by_cases hL : L = []
    · subst hL
      simp
    · have : L.length > 0 := List.length_pos.mpr hL
      simp [this]
  refine ⟨L, hok, hpkg.2.1 List.nodup_nil, hmemiff, hdeps, ?_, ?_, ?_⟩
  · intro x hx
    rw [hdeps]
    apply (mem_insertionDedup _ _).mpr
    exact List.mem_map_of_mem getOptimizedUrl ((hmemiff x).mpr hx)
  · rw [hdeps]
    exact nodup_insertionDedup _
  · intro seen m hm hin
    rw [collectFuel, collectStep, throwFree_lookupG htf entry, hm]
    simp only [wellFormed_id hwf entry m hm]
    simp [hin]

theorem claim_C6_witness :
    wellFormedGraph exampleCycleGraph = true
    ∧ graphThrowFree exampleCycleGraph = true
    ∧ normalizeModule (("A").data) = ("A").data
    ∧ (∃ c, ReachId exampleCycleGraph (("A").data) c
        ∧ Relation.TransGen (EdgeId exampleCycleGraph) c c)
    ∧ (∃ L, collectDepsDev exampleCycleGraph (("A").data) = some (.ok L)
      ∧ L.Nodup
      ∧ (∀ x, x ∈ L ↔ ReachId exampleCycleGraph (("A").data) x)
      ∧ (getDeps [] (some exampleCycleGraph) false [("A").data]).deps
          = insertionDedup (L.map getOptimizedUrl)
      ∧ (∀ x, ReachId exampleCycleGraph (("A").data) x →
          getOptimizedUrl x ∈ (getDeps [] (some exampleCycleGraph) false [("A").data]).deps)
      ∧ (getDeps [] (some exampleCycleGraph) false [("A").data]).deps.Nodup
      ∧ (∀ (seen : List Str) (m : ModuleNode),
          findNode exampleCycleGraph (("A").data) = some m →
          ("A").data ∈ seen →
          collectFuel exampleCycleGraph (exampleCycleGraph.length + 1) (("A").data) seen
            = some (.ok seen))) := by
  have eAB : EdgeId exampleCycleGraph (("A").data) (("B").data) :=
    ⟨⟨some (("A").data), [some (("B").data)]⟩, by decide, by decide, by decide⟩
  have eBA : EdgeId exampleCycleGraph (("B").data) (("A").data) :=
    ⟨⟨some (("B").data), [some (("A").data), some (("C").data)]⟩,
      by decide, by decide, by decide⟩
  have hcyc : ∃ c, ReachId exampleCycleGraph (("A").data) c
      ∧ Relation.TransGen (EdgeId exampleCycleGraph) c c :=
    ⟨("A").data, ReachId.refl (by decide),
      Relation.TransGen.head eAB (Relation.TransGen.single eBA)⟩
  exact ⟨by decide, by decide, by decide, hcyc,
    claim_C6_dev_traversal_cycle [] exampleCycleGraph (("A").data)
      (by decide) (by decide) (by decide) hcyc⟩

end VitePlugin
